import Mathlib

/-!
Shallow embedding of the varisat unsatisfiability-proof checker
(src/varisat/src/checker.rs) and of the binary proof-step codec
(src/varisat/src/proof/varisat.rs).

Rust vectors become Lean lists, the hashbrown map from clause hashes to
buckets becomes an association list, and machine integers become `Nat`
(ids are u64 and never overflow in reachable states; the ref_count
checked_add panic is unreachable for `Nat`).  Fallible operations return
`Except CheckerError`.  Emission of `CheckedProofStep` values to the
registered processors is modelled by returning the list of steps that
are passed to `process_step`.
-/

set_option autoImplicit false

deriving instance DecidableEq for Except

namespace Varisat

/-- Modelled from the spec (§3): the literal type `Lit` of varisat is not
under src/; a literal is encoded as a non-negative integer whose low bit is
the polarity (1 = negative) and whose remaining bits are the variable
index. -/
structure Lit where
  code : Nat
deriving DecidableEq, Repr

/-- Variable index of a literal: the encoded form without the sign bit. -/
def Lit.index (l : Lit) : Nat := l.code / 2

/-- Sign bit of a literal (true for a negative literal). -/
def Lit.is_negative (l : Lit) : Bool := l.code % 2 == 1

/-- Positive-polarity test, the negation of the sign bit. -/
def Lit.is_positive (l : Lit) : Bool := !l.is_negative

/-- Decode a literal from its integer code. -/
def Lit.from_code (c : Nat) : Lit := ⟨c⟩

/-- Modelled from the spec (§4.1): `clause_hash` from the proof module is not
under src/; it is an arbitrary deterministic fixed-width fingerprint of the
sorted, deduplicated literal list (hash equality does not imply literal
equality, buckets are disambiguated by comparing literals). -/
def clause_hash (lits : List Lit) : Nat :=
  lits.foldl (fun h l => (h * 1000003 + l.code + 1) % 2 ^ 64) 0

/-- Inline storage threshold of ClauseLits (checker.rs line 102). -/
def INLINE_LITS : Nat := 3

/-- Literals of a clause, either stored inline in the record (at most
INLINE_LITS of them) or as offset/length into the shared literal buffer
(checker.rs ClauseLits). -/
inductive ClauseLits where
  | inlined (lits : List Lit)
  | buffered (offset : Nat) (length : Nat)
deriving DecidableEq, Repr

/-- Create a ClauseLits, appending to the given buffer when the clause has
more than INLINE_LITS literals (checker.rs ClauseLits::new). -/
def ClauseLits.new (lits : List Lit) (buffer : List Lit) : ClauseLits × List Lit :=
  if lits.length > INLINE_LITS then
    (.buffered buffer.length lits.length, buffer ++ lits)
  else
    (.inlined lits, buffer)

/-- Literals of a ClauseLits as a list, resolved against the storage buffer
(checker.rs ClauseLits::slice). -/
def ClauseLits.slice (cl : ClauseLits) (buffer : List Lit) : List Lit :=
  match cl with
  | .inlined lits => lits
  | .buffered offset length => (buffer.drop offset).take length

/-- Number of literal-buffer positions used by this ClauseLits
(checker.rs ClauseLits::buffer_used): 0 for inline storage. -/
def ClauseLits.buffer_used (cl : ClauseLits) : Nat :=
  match cl with
  | .inlined _ => 0
  | .buffered _ length => length

/-- Literals and metadata of a stored non-unit clause (checker.rs Clause). -/
structure Clause where
  id : Nat
  ref_count : Nat
  lits : ClauseLits
deriving DecidableEq, Repr

/-- Origin of a unit clause (checker.rs UnitId). -/
inductive UnitId where
  | Global (id : Nat)
  | TracePos (pos : Nat)
  | InClause
deriving DecidableEq, Repr

/-- Known unit clause: forcing source and forced value (checker.rs UnitClause). -/
structure UnitClause where
  id : UnitId
  value : Bool
deriving DecidableEq, Repr

/-- Propagation recorded during a RUP check (checker.rs TraceItem); the edge
range is a half-open interval of indices into trace_edges. -/
structure TraceItem where
  id : Nat
  edges : Nat × Nat
  unused : Bool
deriving DecidableEq, Repr

/-- Checked proof step emitted to proof processors (checker.rs
CheckedProofStep); the borrowed slices of the Rust enum become owned lists. -/
inductive CheckedProofStep where
  | AddClause (id : Nat) (clause : List Lit)
  | DuplicatedClause (id : Nat) (same_as_id : Nat) (clause : List Lit)
  | AtClause (id : Nat) (clause : List Lit) (propagations : List Nat)
  | DeleteClause (id : Nat) (clause : List Lit)
deriving DecidableEq, Repr

/-- The clause id carried by an emitted checked step. -/
def CheckedProofStep.stepId : CheckedProofStep → Nat
  | .AddClause id _ => id
  | .DuplicatedClause id _ _ => id
  | .AtClause id _ _ => id
  | .DeleteClause id _ => id

/-- Whether an emitted checked step is a clause deletion. -/
def CheckedProofStep.isDelete : CheckedProofStep → Bool
  | .DeleteClause _ _ => true
  | _ => false

/-- Checker errors (checker.rs CheckerError); the io/parse/processor variants
carry external causes and are outside the model. -/
inductive CheckerError where
  | ProofIncomplete (step : Nat)
  | InvalidDelete (step : Nat) (clause : List Lit)
  | ClauseNotFound (step : Nat) (hash : Nat)
  | ClauseCheckFailed (step : Nat) (clause : List Lit)
deriving DecidableEq, Repr

/-- Decoded proof step fed to the checker (proof module ProofStep). -/
inductive ProofStep where
  | AtClause (clause : List Lit) (propagation_hashes : List Nat)
  | UnitClauses (units : List (Lit × Nat))
  | DeleteClause (clause : List Lit)
deriving DecidableEq, Repr

/-- State of the checker (checker.rs Checker).  The hashbrown map becomes an
association list from hash to bucket; `has_processors` models
`!self.processors.is_empty()`; the `tmp` scratch vector is not state that any
observable behaviour depends on and is kept local to each operation. -/
structure Checker where
  step : Nat := 0
  next_clause_id : Nat := 0
  literal_buffer : List Lit := []
  garbage_size : Nat := 0
  clauses : List (Nat × List Clause) := []
  unit_clauses : List (Option UnitClause) := []
  trail : List (Lit × Option UnitClause) := []
  unsat : Bool := false
  trace : List TraceItem := []
  trace_edges : List Nat := []
  trace_ids : List Nat := []
  has_processors : Bool := false
  unit_conflict : Option (Nat × Nat) := none
deriving DecidableEq, Repr

/-- Fresh checker (checker.rs Checker::new, via Default). -/
def Checker.new : Checker := {}

/-- Bucket of a hash in the clause index (HashMap::get). -/
def getBucket (cls : List (Nat × List Clause)) (h : Nat) : Option (List Clause) :=
  match cls with
  | [] => none
  | (k, b) :: rest => if k = h then some b else getBucket rest h

/-- Replace (or insert) the bucket of a hash (HashMap::entry followed by an
in-place update). -/
def setBucket (cls : List (Nat × List Clause)) (h : Nat) (b : List Clause) :
    List (Nat × List Clause) :=
  match cls with
  | [] => [(h, b)]
  | (k, b₀) :: rest => if k = h then (k, b) :: rest else (k, b₀) :: setBucket rest h b

/-- Remove the bucket of a hash (HashMap::remove; keys are unique in a
HashMap, so removing every association with this key is the same operation). -/
def removeBucket : List (Nat × List Clause) → Nat → List (Nat × List Clause)
  | [], _ => []
  | (k, b₀) :: rest, h =>
      if k = h then removeBucket rest h else (k, b₀) :: removeBucket rest h

/-- Value of a literal if known from unit clauses (checker.rs lit_value):
index into the table, flatten the two levels of Option, and xor the stored
polarity with the literal's sign. -/
def lit_value (s : Checker) (l : Lit) : Option (Bool × UnitClause) :=
  (s.unit_clauses[l.index]?.bind id).map fun u => (u.value ^^ l.is_negative, u)

/-- Grow the unit-clause table so that index `i` is in range, mirroring
`unit_clauses.resize(i + 1, None)` guarded by a length check. -/
def ensureLen (tbl : List (Option UnitClause)) (i : Nat) : List (Option UnitClause) :=
  if tbl.length ≤ i then tbl ++ List.replicate (i + 1 - tbl.length) none else tbl

/-- Add a unit clause (checker.rs store_unit_clause).  The `unreachable!()`
arm of the source (a non-Global table entry outside a RUP check, which never
occurs because the trail is fully unwound after each check) is modelled as a
no-op that reports the clause as already present. -/
def store_unit_clause (s : Checker) (l : Lit) : Checker × Nat × Bool :=
  match lit_value s l with
  | some (true, ⟨.Global id, _⟩) => (s, id, false)
  | some (false, ⟨.Global conflicting_id, _⟩) =>
      let id := s.next_clause_id
      ({ s with unsat := true
                unit_conflict := some (conflicting_id, id)
                next_clause_id := id + 1 }, id, true)
  | some _ => (s, 0, false)
  | none =>
      let tbl := ensureLen s.unit_clauses l.index
      let id := s.next_clause_id
      ({ s with unit_clauses := tbl.set l.index (some ⟨.Global id, l.is_positive⟩)
                next_clause_id := id + 1 }, id, true)

/-- Scan a bucket for a record whose literals equal `lits`; on the first
match increment its ref_count and return its id (the loop in
checker.rs store_clause). -/
def findMatch (buf : List Lit) (lits : List Lit) : List Clause → Option (List Clause × Nat)
  | [] => none
  | c :: rest =>
      if c.lits.slice buf = lits then
        some ({ c with ref_count := c.ref_count + 1 } :: rest, c.id)
      else
        (findMatch buf lits rest).map fun p => (c :: p.1, p.2)

/-- Add a clause to the checker data structures (checker.rs store_clause).
Returns the clause id and whether the clause was not already present. -/
def store_clause (s : Checker) (lits : List Lit) : Checker × Nat × Bool :=
  match lits with
  | [] =>
      let id := s.next_clause_id
      ({ s with next_clause_id := id + 1, unsat := true }, id, true)
  | [l] => store_unit_clause s l
  | _ =>
      let h := clause_hash lits
      let bucket := (getBucket s.clauses h).getD []
      match findMatch s.literal_buffer lits bucket with
      | some (bucket', id) => ({ s with clauses := setBucket s.clauses h bucket' }, id, false)
      | none =>
          let id := s.next_clause_id
          let (cl, buf') := ClauseLits.new lits s.literal_buffer
          ({ s with clauses := setBucket s.clauses h (bucket ++ [⟨id, 1, cl⟩])
                    literal_buffer := buf'
                    next_clause_id := id + 1 }, id, true)

/-- Delete the first bucket record whose literals equal `lits` (the retain
closure of checker.rs delete_clause).  Returns the new bucket and, when a
record matched, its buffer footprint together with its id when the
ref_count reached zero. -/
def deleteFromBucket (buf : List Lit) (lits : List Lit) :
    List Clause → List Clause × Option (Nat × Option Nat)
  | [] => ([], none)
  | c :: rest =>
      if c.lits.slice buf = lits then
        if c.ref_count - 1 = 0 then (rest, some (c.lits.buffer_used, some c.id))
        else ({ c with ref_count := c.ref_count - 1 } :: rest, some (c.lits.buffer_used, none))
      else
        let p := deleteFromBucket buf lits rest
        (c :: p.1, p.2)

/-- Deletion before the garbage-collection call (checker.rs delete_clause up
to and including the empty-bucket removal and the InvalidDelete checks). -/
def delete_clause_core (s : Checker) (lits : List Lit) :
    Checker × Except CheckerError (Option Nat) :=
  if lits.length < 2 then
    (s, .error (.InvalidDelete s.step lits))
  else
    let h := clause_hash lits
    let bucket := (getBucket s.clauses h).getD []
    match deleteFromBucket s.literal_buffer lits bucket with
    | (bucket', none) =>
        let clauses' := if bucket' = [] then removeBucket s.clauses h
                        else setBucket s.clauses h bucket'
        ({ s with clauses := clauses' }, .error (.InvalidDelete s.step lits))
    | (bucket', some (used, result)) =>
        let clauses' := if bucket' = [] then removeBucket s.clauses h
                        else setBucket s.clauses h bucket'
        ({ s with clauses := clauses', garbage_size := s.garbage_size + used }, .ok result)

/-- Copy a bucket's clauses into a fresh buffer (inner loop of
checker.rs collect_garbage). -/
def rebuildBucket (oldBuf : List Lit) : List Clause → List Lit → List Clause × List Lit
  | [], buf => ([], buf)
  | c :: rest, buf =>
      let p := ClauseLits.new (c.lits.slice oldBuf) buf
      let q := rebuildBucket oldBuf rest p.2
      ({ c with lits := p.1 } :: q.1, q.2)

/-- Copy every stored clause into a fresh buffer (outer loop of
checker.rs collect_garbage). -/
def rebuildClauses (oldBuf : List Lit) :
    List (Nat × List Clause) → List Lit → List (Nat × List Clause) × List Lit
  | [], buf => ([], buf)
  | (h, bucket) :: rest, buf =>
      let p := rebuildBucket oldBuf bucket buf
      let q := rebuildClauses oldBuf rest p.2
      ((h, p.1) :: q.1, q.2)

/-- Garbage collection (checker.rs collect_garbage): when more than half of
the literal buffer is garbage, rebuild the buffer and reset the counter. -/
def collect_garbage (s : Checker) : Checker :=
  if s.garbage_size * 2 ≤ s.literal_buffer.length then s
  else
    let p := rebuildClauses s.literal_buffer s.clauses []
    { s with clauses := p.1, literal_buffer := p.2, garbage_size := 0 }

/-- Delete a clause from the current formula (checker.rs delete_clause):
the core deletion followed, on success, by the garbage-collection check. -/
def delete_clause (s : Checker) (lits : List Lit) :
    Checker × Except CheckerError (Option Nat) :=
  match delete_clause_core s lits with
  | (m, .ok r) => (collect_garbage m, .ok r)
  | (m, .error e) => (m, .error e)

/-- Negate every literal of the candidate clause in the unit-clause table,
saving the previous entries on the trail (the first loop of
checker.rs check_clause_with_hashes). -/
def assumeNegated (s : Checker) : List Lit → Checker
  | [] => s
  | l :: rest =>
      let tbl := ensureLen s.unit_clauses l.index
      assumeNegated
        { s with
            trail := s.trail ++ [(l, tbl.getD l.index none)]
            unit_clauses := tbl.set l.index (some ⟨.InClause, l.is_negative⟩) } rest

/-- Outcome of scanning one candidate clause's literals. -/
inductive ScanOut where
  | sat (s : Checker)
  | fin (s : Checker) (count : Nat) (ulit : Option Lit)

/-- Evaluate a candidate clause's literals under the current assignment
(the literal loop of checker.rs check_clause_with_hashes): a satisfied
literal abandons the candidate, a falsified literal contributes a trace
edge (converting a Global source into a fresh trace entry), and unassigned
literals are counted. -/
def scanClause (s : Checker) (count : Nat) (ulit : Option Lit) : List Lit → ScanOut
  | [] => .fin s count ulit
  | l :: rest =>
      match lit_value s l with
      | some (true, _) => .sat s
      | some (false, u) =>
          match u.id with
          | .Global gid =>
              scanClause
                { s with
                    trail := s.trail ++ [(l, s.unit_clauses.getD l.index none)]
                    unit_clauses :=
                      s.unit_clauses.set l.index (some ⟨.TracePos s.trace.length, l.is_negative⟩)
                    trace_edges := s.trace_edges ++ [s.trace.length]
                    trace := s.trace ++ [⟨gid, (0, 0), true⟩] } count ulit rest
          | .TracePos pos =>
              scanClause { s with trace_edges := s.trace_edges ++ [pos] } count ulit rest
          | .InClause => scanClause s count ulit rest
      | none => scanClause s (count + 1) (some l) rest

/-- Process one candidate clause of a bucket (the match on unassigned_lit in
checker.rs check_clause_with_hashes); the boolean is true when the candidate
conflicted, ending the RUP check successfully. -/
def checkCandidate (s : Checker) (c : Clause) : Checker × Bool :=
  let range_begin := s.trace_edges.length
  match scanClause s 0 none (c.lits.slice s.literal_buffer) with
  | .sat s' => (s', false)
  | .fin s' count ulit =>
      let range := (range_begin, s'.trace_edges.length)
      match ulit with
      | none =>
          ({ s' with trace := s'.trace ++ [⟨c.id, range, false⟩] }, true)
      | some l =>
          if count = 1 then
            let tbl := ensureLen s'.unit_clauses l.index
            ({ s' with
                trail := s'.trail ++ [(l, tbl.getD l.index none)]
                unit_clauses := tbl.set l.index (some ⟨.TracePos s'.trace.length, l.is_positive⟩)
                trace := s'.trace ++ [⟨c.id, range, true⟩] }, false)
          else (s', false)

/-- Process a bucket's candidates in order until one conflicts. -/
def checkCandidates (s : Checker) : List Clause → Checker × Bool
  | [] => (s, false)
  | c :: rest =>
      match checkCandidate s c with
      | (s', true) => (s', true)
      | (s', false) => checkCandidates s' rest

/-- Process the propagation hashes in order (the labelled hashes loop of
checker.rs check_clause_with_hashes); a missing or empty bucket returns
ClauseNotFound immediately, exactly as the early return in the source. -/
def checkHashes (s : Checker) : List Nat → Checker × Except CheckerError Bool
  | [] => (s, .ok false)
  | h :: rest =>
      match getBucket s.clauses h with
      | none => (s, .error (.ClauseNotFound s.step h))
      | some bucket =>
          if bucket = [] then (s, .error (.ClauseNotFound s.step h))
          else
            match checkCandidates s bucket with
            | (s', true) => (s', .ok true)
            | (s', false) => checkHashes s' rest

/-- Mark the trace entries pointed to by a list of edges as used. -/
def markEdges (tr : List TraceItem) : List Nat → List TraceItem
  | [] => tr
  | e :: rest => markEdges (tr.set e { (tr.getD e ⟨0, (0, 0), true⟩) with unused := false }) rest

/-- Half-open slice of the trace-edge array. -/
def sliceRange (l : List Nat) (r : Nat × Nat) : List Nat :=
  (l.drop r.1).take (r.2 - r.1)

/-- Backward reachability sweep over the trace (the reverse loop in
checker.rs check_clause_with_hashes); the countdown argument is one past the
index under consideration. -/
def sweepLoop (edgesArr : List Nat) : Nat → List TraceItem → List TraceItem
  | 0, tr => tr
  | i + 1, tr =>
      let tr' :=
        match tr[i]? with
        | some item => if item.unused then tr else markEdges tr (sliceRange edgesArr item.edges)
        | none => tr
      sweepLoop edgesArr i tr'

/-- Run the backward sweep and refresh trace_ids. -/
def runSweep (s : Checker) : Checker :=
  let trace' := sweepLoop s.trace_edges s.trace.length s.trace
  { s with trace := trace', trace_ids := trace'.map (·.id) }

/-- Undo the temporary assignments saved on the trail, most recent first
(the drain-reverse loop of checker.rs check_clause_with_hashes). -/
def restore : List (Lit × Option UnitClause) → List (Option UnitClause) → List (Option UnitClause)
  | [], tbl => tbl
  | p :: rest, tbl => (restore rest tbl).set p.1.index p.2

/-- Unwind the trail, restoring every saved unit-table entry. -/
def unwindTrail (s : Checker) : Checker :=
  { s with unit_clauses := restore s.trail s.unit_clauses, trail := [] }

/-- RUP check (checker.rs check_clause_with_hashes): negate the candidate
clause, propagate along the hash list, optionally minimize the trace for
processors, and unwind the trail.  The source asserts that the trail is
empty on entry; theorems about this function take that as a hypothesis.
A ClauseNotFound error propagates from inside the hashes loop without
reaching the unwinding code, exactly as in the source. -/
def check_clause_with_hashes (s : Checker) (lits : List Lit) (hashes : List Nat) :
    Checker × Except CheckerError Unit :=
  let s₀ := { s with trace := [], trace_edges := [] }
  let s₁ := assumeNegated s₀ lits
  match checkHashes s₁ hashes with
  | (s₂, .error e) => (s₂, .error e)
  | (s₂, .ok rup) =>
      let s₃ := if rup && s₂.has_processors then runSweep s₂ else s₂
      let s₄ := unwindTrail s₃
      if rup then (s₄, .ok ()) else (s₄, .error (.ClauseCheckFailed s₄.step lits))

/-- Insertion sort of literals by encoded value together with removal of
consecutive duplicates, mirroring `sort_unstable` followed by `dedup`. -/
def dedupAdj : List Lit → List Lit
  | [] => []
  | [a] => [a]
  | a :: b :: rest => if a = b then dedupAdj (b :: rest) else a :: dedupAdj (b :: rest)

/-- Sort and deduplicate a clause as add_clause/check_step do with `tmp`. -/
def sortDedup (clause : List Lit) : List Lit :=
  dedupAdj (List.insertionSort (fun a b => a.code ≤ b.code) clause)

/-- Add a clause to the checker (checker.rs add_clause): silently ignored
once unsat, otherwise stored, emitting AddClause or DuplicatedClause (the
duplicate burns the next clause id after emission). -/
def add_clause (s : Checker) (clause : List Lit) : Checker × List CheckedProofStep :=
  if s.unsat then (s, [])
  else
    let tmp := sortDedup clause
    let (s', id, added) := store_clause s tmp
    if added then (s', [.AddClause id tmp])
    else
      ({ s' with next_clause_id := s'.next_clause_id + 1 },
       [.DuplicatedClause s'.next_clause_id id tmp])

/-- Add a formula clause by clause (checker.rs add_formula). -/
def add_formula (s : Checker) : List (List Lit) → Checker × List CheckedProofStep
  | [] => (s, [])
  | c :: rest =>
      let p := add_clause s c
      let q := add_formula p.1 rest
      (q.1, p.2 ++ q.2)

/-- Check the units of a UnitClauses step in order (the loop in
checker.rs check_step): each unit is justified by a singleton RUP check and
then stored, emitting an AtClause step when it was new. -/
def checkUnits (s : Checker) : List (Lit × Nat) →
    Checker × List CheckedProofStep × Option CheckerError
  | [] => (s, [], none)
  | (l, h) :: rest =>
      match check_clause_with_hashes s [l] [h] with
      | (s', .error e) => (s', [], some e)
      | (s', .ok _) =>
          let (s'', id, added) := store_unit_clause s' l
          let out := if added then [CheckedProofStep.AtClause id [l] s'.trace_ids] else []
          let q := checkUnits s'' rest
          (q.1, out ++ q.2.1, q.2.2)

/-- Check a single proof step (checker.rs check_step). -/
def check_step (s : Checker) (step : ProofStep) :
    Checker × List CheckedProofStep × Option CheckerError :=
  match step with
  | .AtClause clause propagation_hashes =>
      let tmp := sortDedup clause
      match check_clause_with_hashes s tmp propagation_hashes with
      | (s', .error e) => (s', [], some e)
      | (s', .ok _) =>
          let (s'', id, added) := store_clause s' tmp
          if added then (s'', [.AtClause id tmp s'.trace_ids], none)
          else (s'', [], none)
  | .DeleteClause clause =>
      let tmp := sortDedup clause
      match delete_clause s tmp with
      | (s', .ok (some id)) => (s', [.DeleteClause id tmp], none)
      | (s', .ok none) => (s', [], none)
      | (s', .error e) => (s', [], some e)
  | .UnitClauses units => checkUnits s units

/-- Final empty-clause synthesis (checker.rs process_unit_conflicts). -/
def conflictEmission (s : Checker) : List CheckedProofStep :=
  match s.unit_conflict with
  | some (a, b) => [.AtClause s.next_clause_id [] [a, b]]
  | none => []

/-- Drive the checker over a list of decoded proof steps, mirroring the loop
of checker.rs check_proof: stop as soon as unsat holds and process unit
conflicts, abort on a step error, and report ProofIncomplete when the steps
run out before unsatisfiability is derived. -/
def check_proof_steps (s : Checker) : List ProofStep →
    Checker × List CheckedProofStep × Option CheckerError
  | [] =>
      if s.unsat then (s, conflictEmission s, none)
      else (s, [], some (.ProofIncomplete (s.step + 1)))
  | st :: rest =>
      if s.unsat then (s, conflictEmission s, none)
      else
        let s₀ := { s with step := s.step + 1 }
        match check_step s₀ st with
        | (s', out, none) =>
            let q := check_proof_steps s' rest
            (q.1, out ++ q.2.1, q.2.2)
        | (s', out, some e) => (s', out, some e)

/-- A complete run of the checker: formula additions followed by proof
steps, returning the final state, every emitted checked step in emission
order, and the error that aborted the run, if any. -/
def checkerRun (clauses : List (List Lit)) (steps : List ProofStep) :
    Checker × List CheckedProofStep × Option CheckerError :=
  let p := add_formula Checker.new clauses
  let q := check_proof_steps p.1 steps
  (q.1, p.2 ++ q.2.1, q.2.2)

/-!
Binary proof format (src/varisat/src/proof/varisat.rs).  Byte streams are
lists of naturals.  The integer codec `vli_enc` (write_u64/read_u64) is not
under src/; per §6 of the spec all integers are little-endian
variable-length unsigned, which is LEB128: seven payload bits per byte,
low-order group first, high bit set on every byte but the last.
-/

/-- Modelled from the spec (§6): write_u64 of the missing vli_enc module,
encoding a number as a little-endian variable-length unsigned integer.
The fuel argument only serves structural termination; fuel `n` always
suffices for value `n`. -/
def write_u64_aux : Nat → Nat → List Nat
  | 0, n => [n]
  | fuel + 1, n => if n < 128 then [n] else (n % 128 + 128) :: write_u64_aux fuel (n / 128)

/-- LEB128 encoding of an unsigned integer. -/
def write_u64 (n : Nat) : List Nat := write_u64_aux n n

/-- Modelled from the spec (§6): read_u64 of the missing vli_enc module,
decoding a little-endian variable-length unsigned integer and returning the
remaining bytes; a truncated stream yields none. -/
def read_u64 : List Nat → Option (Nat × List Nat)
  | [] => none
  | b :: rest =>
      if b < 128 then some (b, rest)
      else
        match read_u64 rest with
        | some (v, r) => some (b - 128 + 128 * v, r)
        | none => none

/-- Literal codes of a clause, each written as a varint. -/
def writeLitCodes : List Lit → List Nat
  | [] => []
  | l :: rest => write_u64 l.code ++ writeLitCodes rest

/-- Write a slice of literals: the length followed by the codes
(varisat.rs write_literals). -/
def write_literals (literals : List Lit) : List Nat :=
  write_u64 literals.length ++ writeLitCodes literals

/-- Read a known number of literal codes. -/
def readLitCodes : Nat → List Nat → Option (List Lit × List Nat)
  | 0, bs => some ([], bs)
  | n + 1, bs =>
      match read_u64 bs with
      | some (c, rest) =>
          match readLitCodes n rest with
          | some (ls, rest') => some (Lit.from_code c :: ls, rest')
          | none => none
      | none => none

/-- Read a slice of literals (varisat.rs read_literals). -/
def read_literals (bs : List Nat) : Option (List Lit × List Nat) :=
  match read_u64 bs with
  | some (n, rest) => readLitCodes n rest
  | none => none

/-- Clause hashes, each written as a varint. -/
def writeHashCodes : List Nat → List Nat
  | [] => []
  | h :: rest => write_u64 h ++ writeHashCodes rest

/-- Write a slice of clause hashes (varisat.rs write_hashes). -/
def write_hashes (hashes : List Nat) : List Nat :=
  write_u64 hashes.length ++ writeHashCodes hashes

/-- Read a known number of clause hashes. -/
def readHashCodes : Nat → List Nat → Option (List Nat × List Nat)
  | 0, bs => some ([], bs)
  | n + 1, bs =>
      match read_u64 bs with
      | some (h, rest) =>
          match readHashCodes n rest with
          | some (hs, rest') => some (h :: hs, rest')
          | none => none
      | none => none

/-- Read a slice of clause hashes (varisat.rs read_hashes). -/
def read_hashes (bs : List Nat) : Option (List Nat × List Nat) :=
  match read_u64 bs with
  | some (n, rest) => readHashCodes n rest
  | none => none

/-- Unit-clause pairs, literal code then hash (varisat.rs write_unit_clauses). -/
def writeUnitCodes : List (Lit × Nat) → List Nat
  | [] => []
  | (l, h) :: rest => write_u64 l.code ++ write_u64 h ++ writeUnitCodes rest

/-- Write a slice of unit clauses (varisat.rs write_unit_clauses). -/
def write_unit_clauses (units : List (Lit × Nat)) : List Nat :=
  write_u64 units.length ++ writeUnitCodes units

/-- Read a known number of unit-clause pairs. -/
def readUnitCodes : Nat → List Nat → Option (List (Lit × Nat) × List Nat)
  | 0, bs => some ([], bs)
  | n + 1, bs =>
      match read_u64 bs with
      | some (c, rest) =>
          match read_u64 rest with
          | some (h, rest') =>
              match readUnitCodes n rest' with
              | some (us, rest'') => some ((Lit.from_code c, h) :: us, rest'')
              | none => none
          | none => none
      | none => none

/-- Read a slice of unit clauses (varisat.rs read_unit_clauses). -/
def read_unit_clauses (bs : List Nat) : Option (List (Lit × Nat) × List Nat) :=
  match read_u64 bs with
  | some (n, rest) => readUnitCodes n rest
  | none => none

/-- Step tag for AtClause (varisat.rs CODE_AT_CLAUSE). -/
def CODE_AT_CLAUSE : Nat := 0

/-- Step tag for UnitClauses (varisat.rs CODE_UNIT_CLAUSES). -/
def CODE_UNIT_CLAUSES : Nat := 1

/-- Step tag for DeleteClause (varisat.rs CODE_DELETE_CLAUSE). -/
def CODE_DELETE_CLAUSE : Nat := 2

/-- Write a proof step in the varisat format (varisat.rs write_step). -/
def write_step : ProofStep → List Nat
  | .AtClause clause propagation_hashes =>
      write_u64 CODE_AT_CLAUSE ++ write_literals clause ++ write_hashes propagation_hashes
  | .UnitClauses units =>
      write_u64 CODE_UNIT_CLAUSES ++ write_unit_clauses units
  | .DeleteClause clause =>
      write_u64 CODE_DELETE_CLAUSE ++ write_literals clause

/-- Parse one proof step (varisat.rs Parser::parse_step); an unknown tag is
a parse error, modelled as none. -/
def parse_step (bs : List Nat) : Option (ProofStep × List Nat) :=
  match read_u64 bs with
  | none => none
  | some (tag, rest) =>
      if tag = CODE_AT_CLAUSE then
        match read_literals rest with
        | some (cl, rest') =>
            match read_hashes rest' with
            | some (hs, rest'') => some (.AtClause cl hs, rest'')
            | none => none
        | none => none
      else if tag = CODE_UNIT_CLAUSES then
        match read_unit_clauses rest with
        | some (us, rest') => some (.UnitClauses us, rest')
        | none => none
      else if tag = CODE_DELETE_CLAUSE then
        match read_literals rest with
        | some (cl, rest') => some (.DeleteClause cl, rest')
        | none => none
      else none

/-- Encode a sequence of proof steps by concatenating write_step output. -/
def encodeSteps : List ProofStep → List Nat
  | [] => []
  | st :: rest => write_step st ++ encodeSteps rest

/-- Parse proof steps until the byte stream is exhausted; the fuel bounds the
number of steps and is consumed once per parsed step. -/
def parseStepsFuel : Nat → List Nat → Option (List ProofStep)
  | _, [] => some []
  | 0, _ :: _ => none
  | fuel + 1, b :: bs =>
      match parse_step (b :: bs) with
      | some (st, rest) =>
          match parseStepsFuel fuel rest with
          | some sts => some (st :: sts)
          | none => none
      | none => none

/-- Parse a whole byte stream as a sequence of proof steps; every parsed
step consumes at least one byte, so the stream length bounds the step
count. -/
def parseSteps (bs : List Nat) : Option (List ProofStep) :=
  parseStepsFuel bs.length bs

/-!
Auxiliary observers and predicates used by the verification below.
-/

/-- Whether a RUP-check result is the ClauseNotFound error. -/
def isClauseNotFound : Except CheckerError Unit → Bool
  | .error (.ClauseNotFound _ _) => true
  | _ => false

/-- Ids and reference counts of a bucket, the storage-independent content of
its records. -/
def idRefs (b : List Clause) : List (Nat × Nat) :=
  b.map fun c => (c.id, c.ref_count)

/-- Bucket of a hash in a checker state (empty when absent). -/
def bucketOf (s : Checker) (h : Nat) : List Clause :=
  (getBucket s.clauses h).getD []

/-- Resolved content of a bucket: id, reference count and literal list of
each record. -/
def viewBucket (buf : List Lit) (b : List Clause) : List (Nat × Nat × List Lit) :=
  b.map fun c => (c.id, c.ref_count, c.lits.slice buf)

/-- Resolved content of the whole clause index. -/
def viewClauses (cls : List (Nat × List Clause)) (buf : List Lit) :
    List (Nat × List (Nat × Nat × List Lit)) :=
  cls.map fun hb => (hb.1, viewBucket buf hb.2)

/-- A storage descriptor lies within the buffer. -/
def LitsFit (cl : ClauseLits) (buf : List Lit) : Prop :=
  match cl with
  | .inlined _ => True
  | .buffered offset length => offset + length ≤ buf.length

/-- Pointwise equality of unit-clause tables, ignoring trailing empty
entries (reading out of range yields an empty entry, as in lit_value). -/
def TblEq (a b : List (Option UnitClause)) : Prop :=
  ∀ i, a.getD i none = b.getD i none

/-- Invariant tying a trail and the current unit-clause table to the table
`tbl₀` at the start of a RUP check: every saved index is in range and
unwinding the trail restores `tbl₀` pointwise. -/
def Inv2 (tbl₀ : List (Option UnitClause)) (trail : List (Lit × Option UnitClause))
    (tbl : List (Option UnitClause)) : Prop :=
  (∀ p ∈ trail, p.1.index < tbl.length) ∧ TblEq (restore trail tbl) tbl₀

/-- The fields of the checker that a RUP check never modifies (of those the
verification tracks): the clause index and the id allocator. -/
def CFrame (s s' : Checker) : Prop :=
  s'.clauses = s.clauses ∧ s'.next_clause_id = s.next_clause_id

/-- State reached by a scan outcome. -/
def ScanOut.state : ScanOut → Checker
  | .sat s => s
  | .fin s _ _ => s

/-- Every clause record's id is below the id allocator. -/
def IdBound (s : Checker) : Prop :=
  ∀ hb ∈ s.clauses, ∀ c ∈ hb.2, c.id < s.next_clause_id

/-- Id ordering between two emitted steps: the later is a deletion or
carries a strictly larger id. -/
def EmitLe (a b : CheckedProofStep) : Prop :=
  b.isDelete = true ∨ a.stepId < b.stepId

/-- Emission bookkeeping for one stretch of a run: steps are pairwise
id-ordered, every id is below `n₁`, and non-deletion ids are at least
`n₀`. -/
def EmitOk (n₀ : Nat) (out : List CheckedProofStep) (n₁ : Nat) : Prop :=
  List.Pairwise EmitLe out ∧
    ∀ st ∈ out, st.stepId < n₁ ∧ (st.isDelete = false → n₀ ≤ st.stepId)

/-!
Concrete scenarios used by the counterexamples and the scenario claims.
Literal codes 0, 2, 4, … denote the positive literals of variables
0, 1, 2, … (DIMACS 1, 2, 3, …).
-/

/-- The clause written {1,2,3} in the spec's scenario S3. -/
def clause123 : List Lit := [⟨0⟩, ⟨2⟩, ⟨4⟩]

/-- S3 step 1: first addition of {1,2,3} to a fresh checker. -/
def c3run1 : Checker × List CheckedProofStep := add_clause Checker.new clause123

/-- S3 step 2: second addition of {1,2,3}. -/
def c3run2 : Checker × List CheckedProofStep := add_clause c3run1.1 clause123

/-- S3 step 3: first deletion of {1,2,3}. -/
def c3run3 : Checker × List CheckedProofStep × Option CheckerError :=
  check_step c3run2.1 (.DeleteClause clause123)

/-- S3 step 4: re-addition of {1,2,3}. -/
def c3run4 : Checker × List CheckedProofStep := add_clause c3run3.1 clause123

/-- S3 step 5: second deletion. -/
def c3run5 : Checker × List CheckedProofStep × Option CheckerError :=
  check_step c3run4.1 (.DeleteClause clause123)

/-- S3 step 6: third deletion. -/
def c3run6 : Checker × List CheckedProofStep × Option CheckerError :=
  check_step c3run5.1 (.DeleteClause clause123)

/-- S3 step 7: fourth deletion. -/
def c3run7 : Checker × List CheckedProofStep × Option CheckerError :=
  check_step c3run6.1 (.DeleteClause clause123)

/-- A ten-literal clause, stored in the literal buffer. -/
def clauseA10 : List Lit :=
  [⟨0⟩, ⟨2⟩, ⟨4⟩, ⟨6⟩, ⟨8⟩, ⟨10⟩, ⟨12⟩, ⟨14⟩, ⟨16⟩, ⟨18⟩]

/-- A four-literal clause, also stored in the literal buffer. -/
def clauseB4 : List Lit := [⟨20⟩, ⟨22⟩, ⟨24⟩, ⟨26⟩]

/-- State after adding the ten-literal clause once and the four-literal
clause twice to a fresh checker. -/
def c6setup : Checker :=
  (add_clause (add_clause (add_clause Checker.new clauseA10).1 clauseB4).1 clauseB4).1

/-- State after then deleting the four-literal clause once (its record
stays live with ref_count 1). -/
def c6after : Checker := (check_step c6setup (.DeleteClause clauseB4)).1

/-!
Theorems.
-/

/-- C9: once the unsat flag is true, add_clause on any clause succeeds,
emits no checked step, and leaves the entire checker state unchanged
(in particular the clause index, literal buffer, unit-clause table,
next_clause_id, and unit_conflict). -/
theorem claim_c9 (s : Checker) (clause : List Lit) (h : s.unsat = true) :
    add_clause s clause = (s, []) := by
  simp [add_clause, h]

/-- Witness for C9 at a concrete unsat state. -/
theorem claim_c9_witness :
    add_clause { Checker.new with unsat := true } clause123 =
      ({ Checker.new with unsat := true }, []) :=
  claim_c9 _ _ rfl

/-- C10: lit_value is total: out-of-range variable indices and empty table
entries yield none (the table, which lit_value only reads, cannot grow),
and a stored entry yields its value xored with the literal's sign together
with the entry. -/
theorem claim_c10 (s : Checker) (l : Lit) :
    (s.unit_clauses.length ≤ l.index → lit_value s l = none) ∧
    (s.unit_clauses[l.index]? = some none → lit_value s l = none) ∧
    (∀ u : UnitClause, s.unit_clauses[l.index]? = some (some u) →
      lit_value s l = some (u.value ^^ l.is_negative, u)) := by
  refine ⟨fun h => ?_, fun h => ?_, fun u h => ?_⟩
  · simp [lit_value, List.getElem?_eq_none h]
  · simp [lit_value, h]
  · simp [lit_value, h]

/-- Witness for C10 at a concrete one-entry table. -/
theorem claim_c10_witness :
    lit_value { Checker.new with unit_clauses := [some ⟨.Global 5, true⟩] } ⟨0⟩ =
      some (true, ⟨.Global 5, true⟩) :=
  (claim_c10 { Checker.new with unit_clauses := [some ⟨.Global 5, true⟩] } ⟨0⟩).2.2
    ⟨.Global 5, true⟩ rfl

/-- C5: store_unit_clause returns (id₀, false) without any state change
when the table already forces the literal via Global(id₀); on an opposite
Global(id₀) forcing it allocates a fresh id, sets unsat and
unit_conflict = [id₀, fresh] and returns (fresh, true); and on an
unassigned variable it records the literal's polarity with source
Global(fresh) and returns (fresh, true).  Non-Global entries never occur
outside a RUP check, so these three cases are exhaustive at every call
site. -/
theorem claim_c5 (s : Checker) (l : Lit) :
    (∀ id₀ v, lit_value s l = some (true, ⟨.Global id₀, v⟩) →
        store_unit_clause s l = (s, id₀, false)) ∧
    (∀ id₀ v, lit_value s l = some (false, ⟨.Global id₀, v⟩) →
        store_unit_clause s l =
          ({ s with unsat := true
                    unit_conflict := some (id₀, s.next_clause_id)
                    next_clause_id := s.next_clause_id + 1 },
           s.next_clause_id, true)) ∧
    (lit_value s l = none →
        store_unit_clause s l =
          ({ s with unit_clauses := (ensureLen s.unit_clauses l.index).set l.index
                      (some ⟨.Global s.next_clause_id, l.is_positive⟩)
                    next_clause_id := s.next_clause_id + 1 },
           s.next_clause_id, true)) := by
  refine ⟨fun id₀ v h => ?_, fun id₀ v h => ?_, fun h => ?_⟩ <;>
    simp [store_unit_clause, h]

/-- Witness for C5: re-storing an already stored unit is a no-op returning
the original id. -/
theorem claim_c5_witness :
    store_unit_clause { Checker.new with
        unit_clauses := [some ⟨.Global 7, true⟩], next_clause_id := 9 } ⟨0⟩ =
      ({ Checker.new with unit_clauses := [some ⟨.Global 7, true⟩], next_clause_id := 9 },
       7, false) :=
  (claim_c5 _ ⟨0⟩).1 7 true rfl

/-- C3 as stated is false on the code: clause ids start at 0, not 1, so the
first addition of {1,2,3} to a fresh checker is emitted as AddClause with
id 0, and the deletion that empties the ref_count is emitted with id 0. -/
theorem claim_c3_counterexample :
    c3run1.2 = [.AddClause 0 clause123] ∧
    c3run1.2 ≠ [.AddClause 1 clause123] ∧
    c3run6.2.1 = [.DeleteClause 0 clause123] ∧
    c3run6.2.1 ≠ [.DeleteClause 1 clause123] := by decide

/-- C3 amended: the scenario of S3 with ids shifted down by one (allocation
starts at 0): the two initial additions yield AddClause id 0 and
DuplicatedClause with burned id 1 (ref_count 2); the first deletion is
suppressed, dropping ref_count from 2 to 1; the re-addition is a duplicate
burning id 2 (ref_count back to 2); of the two further deletions the first
is suppressed and the second emits DeleteClause id 0; a final deletion
fails with InvalidDelete. -/
theorem claim_c3 :
    c3run1.2 = [.AddClause 0 clause123] ∧
    c3run2.2 = [.DuplicatedClause 1 0 clause123] ∧
    (getBucket c3run2.1.clauses (clause_hash clause123)).map (idRefs ·) = some [(0, 2)] ∧
    c3run3.2 = ([], none) ∧
    (getBucket c3run3.1.clauses (clause_hash clause123)).map (idRefs ·) = some [(0, 1)] ∧
    c3run4.2 = [.DuplicatedClause 2 0 clause123] ∧
    c3run5.2 = ([], none) ∧
    c3run6.2 = ([.DeleteClause 0 clause123], none) ∧
    c3run7.2 = ([], some (.InvalidDelete 0 clause123)) := by decide

/-- C1 as stated is false on the code: a ClauseNotFound error returns from
inside the hashes loop before the trail-unwinding code runs, so the call
leaves the trail non-empty and the candidate clause's transient entry in
the unit-clause table. -/
theorem claim_c1_counterexample :
    (check_clause_with_hashes Checker.new [⟨0⟩] [0]).2 =
        .error (.ClauseNotFound 0 0) ∧
    (check_clause_with_hashes Checker.new [⟨0⟩] [0]).1.trail ≠ [] ∧
    (check_clause_with_hashes Checker.new [⟨0⟩] [0]).1.unit_clauses ≠
        Checker.new.unit_clauses := by decide

/-- C2 as stated is false on the code: a DeleteClause step carries the id of
the deleted clause, which was allocated earlier, so adding two clauses and
deleting the first emits ids 0, 1, 0 — not strictly increasing. -/
theorem claim_c2_counterexample :
    ¬ List.Pairwise (fun a b : CheckedProofStep => a.stepId < b.stepId)
        (checkerRun [clause123, clauseB4] [.DeleteClause clause123]).2.1 := by decide

/-- C6 as stated is false on the code: deleting one of two copies of a
buffer-stored clause increments garbage_size by the record's buffer
footprint even though the record stays live: after adding a ten-literal
clause once and a four-literal clause twice, one deletion of the latter
leaves its record present (id 1, ref_count 1, literals intact) yet
garbage_size = 4 counts its buffer positions. -/
theorem claim_c6_counterexample :
    c6after.garbage_size = 4 ∧
    (getBucket c6after.clauses (clause_hash clauseB4)).map
        (viewBucket c6after.literal_buffer ·) = some [(1, 1, clauseB4)] := by decide

/-!
Garbage collection and deletion.
-/

/-- A fitting storage descriptor still fits after the buffer grows. -/
theorem litsFit_append (cl : ClauseLits) (a b : List Lit) (h : LitsFit cl a) :
    LitsFit cl (a ++ b) := by
  cases cl with
  | inlined _ => trivial
  | buffered o n => simp only [LitsFit, List.length_append] at h ⊢; omega

/-- Slices of fitting descriptors are stable under buffer growth. -/
theorem slice_append (cl : ClauseLits) (a b : List Lit) (h : LitsFit cl a) :
    cl.slice (a ++ b) = cl.slice a := by
  cases cl with
  | inlined _ => rfl
  | buffered o n =>
      simp only [ClauseLits.slice, LitsFit] at h ⊢
      rw [List.drop_append_of_le_length (by omega),
          List.take_append_of_le_length (by rw [List.length_drop]; omega)]

/-- ClauseLits.new only appends to the buffer. -/
theorem new_buffer_ext (lits buf : List Lit) :
    ∃ ext, (ClauseLits.new lits buf).2 = buf ++ ext := by
  unfold ClauseLits.new; split
  · exact ⟨lits, rfl⟩
  · exact ⟨[], by simp⟩

/-- The descriptor built by ClauseLits.new fits the returned buffer. -/
theorem new_fit (lits buf : List Lit) :
    LitsFit (ClauseLits.new lits buf).1 (ClauseLits.new lits buf).2 := by
  unfold ClauseLits.new; split
  · simp [LitsFit]
  · trivial

/-- ClauseLits.new stores exactly the given literals. -/
theorem new_slice (lits buf : List Lit) :
    (ClauseLits.new lits buf).1.slice (ClauseLits.new lits buf).2 = lits := by
  unfold ClauseLits.new; split
  · simp [ClauseLits.slice, List.drop_left, List.take_length]
  · rfl

/-- Resolved bucket contents are stable under buffer growth when every
record fits. -/
theorem viewBucket_append (a e : List Lit) (b : List Clause)
    (h : ∀ c ∈ b, LitsFit c.lits a) :
    viewBucket (a ++ e) b = viewBucket a b := by
  unfold viewBucket
  exact List.map_congr_left fun c hc => by rw [slice_append _ _ _ (h c hc)]

/-- Rebuilding a bucket only appends to the fresh buffer, leaves every
record fitting it, and preserves the resolved contents. -/
theorem rebuildBucket_spec (oldBuf : List Lit) (b : List Clause) :
    ∀ buf : List Lit,
      (∃ ext, (rebuildBucket oldBuf b buf).2 = buf ++ ext) ∧
      (∀ c' ∈ (rebuildBucket oldBuf b buf).1,
        LitsFit c'.lits (rebuildBucket oldBuf b buf).2) ∧
      viewBucket (rebuildBucket oldBuf b buf).2 (rebuildBucket oldBuf b buf).1 =
        viewBucket oldBuf b := by
  induction b with
  | nil =>
      intro buf
      exact ⟨⟨[], by simp [rebuildBucket]⟩, by simp [rebuildBucket],
        by simp [rebuildBucket, viewBucket]⟩
  | cons c rest ih =>
      intro buf
      obtain ⟨e₁, he₁⟩ := new_buffer_ext (c.lits.slice oldBuf) buf
      obtain ⟨⟨e₂, he₂⟩, ihfit, ihview⟩ := ih (ClauseLits.new (c.lits.slice oldBuf) buf).2
      simp only [rebuildBucket]
      refine ⟨⟨e₁ ++ e₂, by rw [he₂, he₁, List.append_assoc]⟩, ?_, ?_⟩
      · intro c' hc'
        rcases List.mem_cons.mp hc' with hh | ht
        · subst hh
          rw [he₂]
          exact litsFit_append _ _ _ (new_fit (c.lits.slice oldBuf) buf)
        · exact ihfit c' ht
      · simp only [viewBucket, List.map_cons]
        refine congrArg₂ _ ?_ ihview
        rw [he₂, slice_append _ _ _ (new_fit (c.lits.slice oldBuf) buf), new_slice]

/-- Rebuilding the whole index only appends to the fresh buffer, leaves
every record fitting it, and preserves the resolved contents. -/
theorem rebuildClauses_spec (oldBuf : List Lit) (cls : List (Nat × List Clause)) :
    ∀ buf : List Lit,
      (∃ ext, (rebuildClauses oldBuf cls buf).2 = buf ++ ext) ∧
      (∀ hb ∈ (rebuildClauses oldBuf cls buf).1, ∀ c ∈ hb.2,
        LitsFit c.lits (rebuildClauses oldBuf cls buf).2) ∧
      viewClauses (rebuildClauses oldBuf cls buf).1 (rebuildClauses oldBuf cls buf).2 =
        viewClauses cls oldBuf := by
  induction cls with
  | nil =>
      intro buf
      exact ⟨⟨[], by simp [rebuildClauses]⟩, by simp [rebuildClauses],
        by simp [rebuildClauses, viewClauses]⟩
  | cons hb rest ih =>
      intro buf
      obtain ⟨k, bucket⟩ := hb
      obtain ⟨⟨e₁, he₁⟩, hfit₁, hview₁⟩ := rebuildBucket_spec oldBuf bucket buf
      obtain ⟨⟨e₂, he₂⟩, ihfit, ihview⟩ := ih (rebuildBucket oldBuf bucket buf).2
      simp only [rebuildClauses]
      refine ⟨⟨e₁ ++ e₂, by rw [he₂, he₁, List.append_assoc]⟩, ?_, ?_⟩
      · intro hb' hhb' c hc
        rcases List.mem_cons.mp hhb' with hh | ht
        · subst hh
          rw [he₂]
          exact litsFit_append _ _ _ (hfit₁ c hc)
        · exact ihfit hb' ht c hc
      · simp only [viewClauses, List.map_cons]
        refine congrArg₂ _ ?_ ihview
        rw [he₂, viewBucket_append _ _ _ hfit₁, hview₁]

/-- Garbage collection is a no-op below the threshold. -/
theorem collect_garbage_le (s : Checker)
    (h : s.garbage_size * 2 ≤ s.literal_buffer.length) : collect_garbage s = s := by
  simp [collect_garbage, h]

/-- Garbage collection above the threshold resets garbage_size and
preserves the resolved contents of the clause index. -/
theorem collect_garbage_gt (s : Checker)
    (h : ¬ s.garbage_size * 2 ≤ s.literal_buffer.length) :
    (collect_garbage s).garbage_size = 0 ∧
    viewClauses (collect_garbage s).clauses (collect_garbage s).literal_buffer =
      viewClauses s.clauses s.literal_buffer := by
  simp only [collect_garbage, if_neg h]
  exact ⟨by trivial, (rebuildClauses_spec s.literal_buffer s.clauses []).2.2⟩

/-- Garbage collection is idempotent. -/
theorem collect_garbage_idem (s : Checker) :
    collect_garbage (collect_garbage s) = collect_garbage s := by
  by_cases h : s.garbage_size * 2 ≤ s.literal_buffer.length
  · rw [collect_garbage_le s h]
    exact collect_garbage_le s h
  · exact collect_garbage_le _ (by rw [(collect_garbage_gt s h).1]; simp)

/-- C7: after every successful deletion the state is the garbage-collected
core-deletion state; collection compacts exactly when garbage_size * 2
exceeds the buffer length, in which case it copies every stored clause's
literals into the fresh buffer (resolved contents preserved) and resets
garbage_size to 0; and running collection twice back-to-back equals
running it once. -/
theorem claim_c7 :
    (∀ s : Checker, collect_garbage (collect_garbage s) = collect_garbage s) ∧
    (∀ s : Checker, s.garbage_size * 2 ≤ s.literal_buffer.length →
        collect_garbage s = s) ∧
    (∀ s : Checker, s.literal_buffer.length < s.garbage_size * 2 →
        (collect_garbage s).garbage_size = 0 ∧
        viewClauses (collect_garbage s).clauses (collect_garbage s).literal_buffer =
          viewClauses s.clauses s.literal_buffer) ∧
    (∀ (s : Checker) (lits : List Lit) (m : Checker) (r : Option Nat),
        delete_clause_core s lits = (m, Except.ok r) →
        delete_clause s lits = (collect_garbage m, Except.ok r)) :=
  ⟨collect_garbage_idem, collect_garbage_le,
   fun s h => collect_garbage_gt s (not_le.mpr h),
   fun s lits m r h => by simp [delete_clause, h]⟩

/-- Witness for C7: on a fresh checker the below-threshold case applies and
collection is a no-op. -/
theorem claim_c7_witness : collect_garbage Checker.new = Checker.new :=
  claim_c7.2.1 Checker.new (by decide)

/-- Looking up the hash just set yields the new bucket. -/
theorem getBucket_setBucket_self :
    ∀ (cls : List (Nat × List Clause)) (h : Nat) (b : List Clause),
      getBucket (setBucket cls h b) h = some b
  | [], h, b => by simp [setBucket, getBucket]
  | (k, b₀) :: rest, h, b => by
      by_cases hk : k = h
      · subst hk
        simp [setBucket, getBucket]
      · simp only [setBucket, getBucket, if_neg hk]
        exact getBucket_setBucket_self rest h b

/-- Setting one hash's bucket leaves other lookups unchanged. -/
theorem getBucket_setBucket_ne :
    ∀ (cls : List (Nat × List Clause)) (h k' : Nat) (b : List Clause), k' ≠ h →
      getBucket (setBucket cls h b) k' = getBucket cls k'
  | [], h, k', b, hne => by
      simp only [setBucket, getBucket]
      rw [if_neg (fun hh => hne hh.symm)]
  | (k, b₀) :: rest, h, k', b, hne => by
      by_cases hk : k = h
      · subst hk
        simp only [setBucket, if_pos rfl, getBucket]
        rw [if_neg (fun hh => hne hh.symm), if_neg (fun hh => hne hh.symm)]
      · simp only [setBucket, if_neg hk, getBucket]
        by_cases hk' : k = k'
        · rw [if_pos hk', if_pos hk']
        · rw [if_neg hk', if_neg hk']
          exact getBucket_setBucket_ne rest h k' b hne

/-- Looking up a removed hash yields nothing. -/
theorem getBucket_removeBucket_self :
    ∀ (cls : List (Nat × List Clause)) (h : Nat),
      getBucket (removeBucket cls h) h = none
  | [], h => rfl
  | (k, b₀) :: rest, h => by
      by_cases hk : k = h
      · simp only [removeBucket, if_pos hk]
        exact getBucket_removeBucket_self rest h
      · simp only [removeBucket, if_neg hk, getBucket, if_neg hk]
        exact getBucket_removeBucket_self rest h

/-- Removing one hash's bucket leaves other lookups unchanged. -/
theorem getBucket_removeBucket_ne :
    ∀ (cls : List (Nat × List Clause)) (h k' : Nat), k' ≠ h →
      getBucket (removeBucket cls h) k' = getBucket cls k'
  | [], h, k', hne => rfl
  | (k, b₀) :: rest, h, k', hne => by
      by_cases hk : k = h
      · simp only [removeBucket, if_pos hk]
        rw [getBucket_removeBucket_ne rest h k' hne]
        simp only [getBucket]
        rw [if_neg (fun hh : k = k' => hne (hh ▸ hk))]
      · simp only [removeBucket, if_neg hk, getBucket]
        by_cases hk' : k = k'
        · rw [if_pos hk', if_pos hk']
        · rw [if_neg hk', if_neg hk']
          exact getBucket_removeBucket_ne rest h k' hne

/-- Rebuilding a bucket preserves its ids and reference counts. -/
theorem rebuildBucket_idRefs (oldBuf : List Lit) (b : List Clause) :
    ∀ buf : List Lit, idRefs (rebuildBucket oldBuf b buf).1 = idRefs b := by
  induction b with
  | nil => intro buf; rfl
  | cons c rest ih =>
      intro buf
      simp only [rebuildBucket, idRefs, List.map_cons]
      exact congrArg _ (ih _)

/-- Rebuilding the index preserves every bucket's ids and reference
counts. -/
theorem rebuildClauses_getBucket (oldBuf : List Lit) (cls : List (Nat × List Clause)) :
    ∀ (buf : List Lit) (h : Nat),
      Option.map idRefs (getBucket (rebuildClauses oldBuf cls buf).1 h) =
        Option.map idRefs (getBucket cls h) := by
  induction cls with
  | nil => intro buf h; rfl
  | cons hb rest ih =>
      intro buf h
      obtain ⟨k, bucket⟩ := hb
      by_cases hk : k = h <;>
        simp [rebuildClauses, getBucket, hk, rebuildBucket_idRefs, ih]

/-- Ids and reference counts of an optional bucket, default empty. -/
theorem idRefs_getD (o : Option (List Clause)) :
    idRefs (o.getD []) = (o.map idRefs).getD [] := by
  cases o <;> rfl

/-- Garbage collection preserves every bucket's ids and reference counts. -/
theorem collect_garbage_idRefs (m : Checker) (h : Nat) :
    idRefs (bucketOf (collect_garbage m) h) = idRefs (bucketOf m h) := by
  by_cases ht : m.garbage_size * 2 ≤ m.literal_buffer.length
  · rw [collect_garbage_le m ht]
  · simp only [collect_garbage, if_neg ht, bucketOf]
    rw [idRefs_getD, idRefs_getD, rebuildClauses_getBucket]

/-- A bucket with no record matching the literals is left unchanged by the
deletion scan. -/
theorem deleteFromBucket_no_match (buf lits : List Lit) :
    ∀ b : List Clause, (∀ c ∈ b, c.lits.slice buf ≠ lits) →
      deleteFromBucket buf lits b = (b, none) := by
  intro b
  induction b with
  | nil => intro _; rfl
  | cons c rest ih =>
      intro hno
      simp only [deleteFromBucket, if_neg (hno c (by simp)),
        ih (fun c' hc' => hno c' (by simp [hc']))]

/-- The deletion scan affects exactly the first matching record: it is
removed when its reference count reaches zero (returning its id) and
decremented otherwise (returning none); its buffer footprint is reported
either way. -/
theorem deleteFromBucket_match (buf lits : List Lit) (c : Clause)
    (hc : c.lits.slice buf = lits) :
    ∀ pre post : List Clause, (∀ p ∈ pre, p.lits.slice buf ≠ lits) →
      deleteFromBucket buf lits (pre ++ c :: post) =
        (pre ++ (if c.ref_count - 1 = 0 then post
                 else { c with ref_count := c.ref_count - 1 } :: post),
         some (c.lits.buffer_used, if c.ref_count - 1 = 0 then some c.id else none))
  | [], post, _ => by
      show deleteFromBucket buf lits (c :: post) = _
      simp only [deleteFromBucket, if_pos hc]
      split <;> simp
  | q :: pre', post, hpre => by
      show deleteFromBucket buf lits (q :: (pre' ++ c :: post)) = _
      simp only [deleteFromBucket, if_neg (hpre q (List.mem_cons_self q pre'))]
      rw [deleteFromBucket_match buf lits c hc pre' post
        (fun p hp => hpre p (List.mem_cons_of_mem q hp))]
      rfl

/-- C4: deletion of a list with fewer than two literals fails with
InvalidDelete and changes nothing; deletion with no literal-identical
record in the hash bucket fails with InvalidDelete; otherwise exactly the
first matching record is decremented — removed, with its id returned, when
the count reaches zero, and kept with none returned otherwise — and every
other record's id and reference count (in this and every other bucket) is
unchanged. -/
theorem claim_c4 :
    (∀ (s : Checker) (lits : List Lit), lits.length < 2 →
        delete_clause s lits = (s, .error (.InvalidDelete s.step lits))) ∧
    (∀ (s : Checker) (lits : List Lit), 2 ≤ lits.length →
        (∀ c ∈ bucketOf s (clause_hash lits), c.lits.slice s.literal_buffer ≠ lits) →
        (delete_clause s lits).2 = .error (.InvalidDelete s.step lits)) ∧
    (∀ (s : Checker) (lits : List Lit) (pre : List Clause) (c : Clause)
        (post : List Clause), 2 ≤ lits.length →
        bucketOf s (clause_hash lits) = pre ++ c :: post →
        (∀ p ∈ pre, p.lits.slice s.literal_buffer ≠ lits) →
        c.lits.slice s.literal_buffer = lits →
        (delete_clause s lits).2 =
          .ok (if c.ref_count - 1 = 0 then some c.id else none) ∧
        idRefs (bucketOf (delete_clause s lits).1 (clause_hash lits)) =
          idRefs pre ++ (if c.ref_count - 1 = 0 then idRefs post
                         else (c.id, c.ref_count - 1) :: idRefs post) ∧
        (∀ h', h' ≠ clause_hash lits →
          idRefs (bucketOf (delete_clause s lits).1 h') = idRefs (bucketOf s h'))) := by
  refine ⟨?_, ?_, ?_⟩
  · intro s lits hlen
    simp [delete_clause, delete_clause_core, hlen]
  · intro s lits hlen hno
    rw [delete_clause, delete_clause_core]
    simp only [if_neg (by omega : ¬ lits.length < 2)]
    rw [show (getBucket s.clauses (clause_hash lits)).getD [] =
          bucketOf s (clause_hash lits) from rfl,
        deleteFromBucket_no_match _ _ _ hno]
  · intro s lits pre c post hlen hb hpre hc
    have hcore : delete_clause_core s lits =
        ({ s with
            clauses :=
              if pre ++ (if c.ref_count - 1 = 0 then post
                         else { c with ref_count := c.ref_count - 1 } :: post) = [] then
                removeBucket s.clauses (clause_hash lits)
              else
                setBucket s.clauses (clause_hash lits)
                  (pre ++ (if c.ref_count - 1 = 0 then post
                           else { c with ref_count := c.ref_count - 1 } :: post))
            garbage_size := s.garbage_size + c.lits.buffer_used },
         .ok (if c.ref_count - 1 = 0 then some c.id else none)) := by
      rw [delete_clause_core]
      simp only [if_neg (by omega : ¬ lits.length < 2)]
      rw [show (getBucket s.clauses (clause_hash lits)).getD [] =
            bucketOf s (clause_hash lits) from rfl, hb,
          deleteFromBucket_match _ _ _ hc _ _ hpre]
    have hdel := claim_c7.2.2.2 s lits _ _ hcore
    set bucket' := pre ++ (if c.ref_count - 1 = 0 then post
                           else { c with ref_count := c.ref_count - 1 } :: post) with hbk
    have hmid : ∀ h', idRefs (bucketOf (delete_clause s lits).1 h') =
        idRefs ((if h' = clause_hash lits then some bucket'
                 else getBucket s.clauses h').getD []) := by
      intro h'
      rw [hdel]
      show idRefs (bucketOf (collect_garbage _) h') = _
      rw [collect_garbage_idRefs]
      show idRefs ((getBucket
          (if bucket' = [] then removeBucket s.clauses (clause_hash lits)
           else setBucket s.clauses (clause_hash lits) bucket') h').getD []) = _
      by_cases hh : h' = clause_hash lits
      · subst hh
        rw [if_pos rfl]
        by_cases hbe : bucket' = []
        · rw [if_pos hbe, getBucket_removeBucket_self, hbe]
          rfl
        · rw [if_neg hbe, getBucket_setBucket_self]
      · rw [if_neg hh]
        by_cases hbe : bucket' = []
        · rw [if_pos hbe, getBucket_removeBucket_ne _ _ _ hh]
        · rw [if_neg hbe, getBucket_setBucket_ne _ _ _ _ hh]
    refine ⟨by rw [hdel], ?_, ?_⟩
    · rw [hmid (clause_hash lits), if_pos rfl, Option.getD_some, hbk]
      by_cases hz : c.ref_count - 1 = 0
      · rw [if_pos hz, if_pos hz]
        simp [idRefs]
      · rw [if_neg hz, if_neg hz]
        simp [idRefs]
    · intro h' hh
      rw [hmid h', if_neg hh]
      rfl

/-- Witness for C4: deleting the single stored copy of {1,2,3} removes its
record and returns its id 0. -/
theorem claim_c4_witness :
    (delete_clause c3run1.1 clause123).2 = .ok (some 0) := by
  have h := (claim_c4.2.2 c3run1.1 clause123 [] ⟨0, 1, .inlined clause123⟩ []
    (by decide) (by decide) (by decide) (by decide)).1
  simpa using h

/-- C6 amended: every successful deletion adds the matched record's buffer
footprint (its length when buffer-stored, 0 when inline) to garbage_size,
even when the record stays live because only its reference count dropped;
when the result stays at or below the collection threshold this is also
the garbage_size after the full call. -/
theorem claim_c6 (s : Checker) (lits : List Lit) (pre : List Clause) (c : Clause)
    (post : List Clause) (hlen : 2 ≤ lits.length)
    (hb : bucketOf s (clause_hash lits) = pre ++ c :: post)
    (hpre : ∀ p ∈ pre, p.lits.slice s.literal_buffer ≠ lits)
    (hc : c.lits.slice s.literal_buffer = lits) :
    (delete_clause_core s lits).1.garbage_size = s.garbage_size + c.lits.buffer_used ∧
    ((s.garbage_size + c.lits.buffer_used) * 2 ≤ s.literal_buffer.length →
      (delete_clause s lits).1.garbage_size = s.garbage_size + c.lits.buffer_used) := by
  have hcore : (delete_clause_core s lits).1.garbage_size =
      s.garbage_size + c.lits.buffer_used ∧
      (delete_clause_core s lits).1.literal_buffer = s.literal_buffer ∧
      ∃ r, (delete_clause_core s lits).2 = Except.ok r := by
    rw [delete_clause_core]
    simp only [if_neg (by omega : ¬ lits.length < 2)]
    rw [show (getBucket s.clauses (clause_hash lits)).getD [] =
          bucketOf s (clause_hash lits) from rfl, hb,
        deleteFromBucket_match _ _ _ hc _ _ hpre]
    exact ⟨rfl, rfl, _, rfl⟩
  refine ⟨hcore.1, fun hthr => ?_⟩
  obtain ⟨r, hr⟩ := hcore.2.2
  have hdel := claim_c7.2.2.2 s lits (delete_clause_core s lits).1 r (by
    rw [← hr])
  rw [hdel, collect_garbage_le _ (by rw [hcore.1, hcore.2.1]; exact hthr), hcore.1]

/-- Witness for C6: deleting one of the two copies of the stored
four-literal clause leaves its record live yet adds its four buffer
positions to garbage_size. -/
theorem claim_c6_witness :
    (delete_clause_core c6setup clauseB4).1.garbage_size = 4 := by
  have h := (claim_c6 c6setup clauseB4 [] ⟨1, 2, .buffered 10 4⟩ []
    (by decide) (by decide) (by decide) (by decide)).1
  simpa using h

/-!
Binary codec round-trip.
-/

/-- Decoding an encoded varint in front of any byte stream yields the value
and the stream. -/
theorem read_write_u64_aux :
    ∀ (fuel n : Nat), n ≤ fuel → ∀ tail : List Nat,
      read_u64 (write_u64_aux fuel n ++ tail) = some (n, tail)
  | 0, n, hn, tail => by
      have h0 : n = 0 := Nat.le_zero.mp hn
      subst h0
      simp [write_u64_aux, read_u64]
  | fuel + 1, n, hn, tail => by
      by_cases h : n < 128
      · simp [write_u64_aux, read_u64, h]
      · have hrec : n / 128 ≤ fuel := by
          have := Nat.div_lt_self (by omega : 0 < n) (by omega : 1 < 128)
          omega
        simp only [write_u64_aux, if_neg h, List.cons_append, read_u64,
          if_neg (by omega : ¬ n % 128 + 128 < 128),
          read_write_u64_aux fuel (n / 128) hrec tail]
        have : n % 128 + 128 - 128 + 128 * (n / 128) = n := by
          have := Nat.mod_add_div n 128
          omega
        rw [this]

/-- Varint round trip. -/
theorem read_write_u64 (n : Nat) (tail : List Nat) :
    read_u64 (write_u64 n ++ tail) = some (n, tail) :=
  read_write_u64_aux n n le_rfl tail

/-- A varint encoding is never empty. -/
theorem write_u64_ne_nil (n : Nat) : write_u64 n ≠ [] := by
  unfold write_u64
  cases n with
  | zero => simp [write_u64_aux]
  | succ m =>
      simp only [write_u64_aux]
      split <;> simp

/-- Literal lists round-trip through the codec. -/
theorem readLitCodes_write :
    ∀ (ls : List Lit) (tail : List Nat),
      readLitCodes ls.length (writeLitCodes ls ++ tail) = some (ls, tail)
  | [], tail => rfl
  | l :: rest, tail => by
      simp only [writeLitCodes, List.length_cons, List.append_assoc, readLitCodes,
        read_write_u64, readLitCodes_write rest tail]
      rfl

/-- read_literals inverts write_literals. -/
theorem read_literals_write (ls : List Lit) (tail : List Nat) :
    read_literals (write_literals ls ++ tail) = some (ls, tail) := by
  simp only [write_literals, read_literals, List.append_assoc, read_write_u64]
  exact readLitCodes_write ls tail

/-- Hash lists round-trip through the codec. -/
theorem readHashCodes_write :
    ∀ (hs : List Nat) (tail : List Nat),
      readHashCodes hs.length (writeHashCodes hs ++ tail) = some (hs, tail)
  | [], tail => rfl
  | h :: rest, tail => by
      simp only [writeHashCodes, List.length_cons, List.append_assoc, readHashCodes,
        read_write_u64, readHashCodes_write rest tail]

/-- read_hashes inverts write_hashes. -/
theorem read_hashes_write (hs : List Nat) (tail : List Nat) :
    read_hashes (write_hashes hs ++ tail) = some (hs, tail) := by
  simp only [write_hashes, read_hashes, List.append_assoc, read_write_u64]
  exact readHashCodes_write hs tail

/-- Unit-clause lists round-trip through the codec. -/
theorem readUnitCodes_write :
    ∀ (us : List (Lit × Nat)) (tail : List Nat),
      readUnitCodes us.length (writeUnitCodes us ++ tail) = some (us, tail)
  | [], tail => rfl
  | (l, h) :: rest, tail => by
      simp only [writeUnitCodes, List.length_cons, List.append_assoc, readUnitCodes,
        read_write_u64, readUnitCodes_write rest tail]
      rfl

/-- read_unit_clauses inverts write_unit_clauses. -/
theorem read_unit_clauses_write (us : List (Lit × Nat)) (tail : List Nat) :
    read_unit_clauses (write_unit_clauses us ++ tail) = some (us, tail) := by
  simp only [write_unit_clauses, read_unit_clauses, List.append_assoc, read_write_u64]
  exact readUnitCodes_write us tail

/-- parse_step inverts write_step in front of any byte stream. -/
theorem parse_write_step (st : ProofStep) (tail : List Nat) :
    parse_step (write_step st ++ tail) = some (st, tail) := by
  cases st with
  | AtClause clause propagation_hashes =>
      simp only [write_step, parse_step, List.append_assoc, read_write_u64,
        read_literals_write, read_hashes_write]
      rfl
  | UnitClauses units =>
      simp only [write_step, parse_step, List.append_assoc, read_write_u64,
        read_unit_clauses_write]
      rfl
  | DeleteClause clause =>
      simp only [write_step, parse_step, List.append_assoc, read_write_u64,
        read_literals_write]
      rfl

/-- A varint encoding takes at least one byte. -/
theorem write_u64_length_pos (n : Nat) : 1 ≤ (write_u64 n).length := by
  cases hw : write_u64 n with
  | nil => exact absurd hw (write_u64_ne_nil n)
  | cons b bs => simp

/-- Every encoded step takes at least one byte, so a stream of encoded
steps is at least as long as the step list. -/
theorem encodeSteps_length : ∀ steps : List ProofStep,
    steps.length ≤ (encodeSteps steps).length
  | [] => le_rfl
  | st :: rest => by
      have h1 : 1 ≤ (write_step st).length := by
        cases st with
        | AtClause c hs =>
            simp only [write_step, List.length_append]
            have := write_u64_length_pos CODE_AT_CLAUSE
            omega
        | UnitClauses us =>
            simp only [write_step, List.length_append]
            have := write_u64_length_pos CODE_UNIT_CLAUSES
            omega
        | DeleteClause c =>
            simp only [write_step, List.length_append]
            have := write_u64_length_pos CODE_DELETE_CLAUSE
            omega
      calc (st :: rest).length = rest.length + 1 := by simp
        _ ≤ (encodeSteps rest).length + (write_step st).length := by
              have := encodeSteps_length rest
              omega
        _ = (encodeSteps (st :: rest)).length := by
              simp [encodeSteps, List.length_append]
              omega

/-- With enough fuel, parsing inverts encoding for any step sequence. -/
theorem parseStepsFuel_encode :
    ∀ (steps : List ProofStep) (fuel : Nat), steps.length ≤ fuel →
      parseStepsFuel fuel (encodeSteps steps) = some steps
  | [], fuel, _ => by cases fuel <;> rfl
  | st :: rest, fuel, hle => by
      obtain ⟨f, rfl⟩ : ∃ f, fuel = f + 1 := by
        cases fuel with
        | zero => simp at hle
        | succ f => exact ⟨f, rfl⟩
      have hne : write_step st ++ encodeSteps rest ≠ [] := by
        cases st <;>
          simp only [write_step, List.append_assoc, ne_eq, List.append_eq_nil] <;>
          exact fun hh => write_u64_ne_nil _ hh.1
      obtain ⟨b, bs, hbs⟩ : ∃ b bs, write_step st ++ encodeSteps rest = b :: bs := by
        cases hh : write_step st ++ encodeSteps rest with
        | nil => exact absurd hh hne
        | cons b bs => exact ⟨b, bs, rfl⟩
      show parseStepsFuel (f + 1) (encodeSteps (st :: rest)) = some (st :: rest)
      rw [show encodeSteps (st :: rest) = write_step st ++ encodeSteps rest from rfl, hbs]
      simp only [parseStepsFuel]
      rw [← hbs, parse_write_step st (encodeSteps rest)]
      simp only [parseStepsFuel_encode rest f (by simpa using hle)]

/-- C8: encoding any sequence of proof steps with write_step and decoding
the resulting byte stream with parse_step yields the original sequence. -/
theorem claim_c8 (steps : List ProofStep) :
    parseSteps (encodeSteps steps) = some steps :=
  parseStepsFuel_encode steps (encodeSteps steps).length (encodeSteps_length steps)

/-!
Trail restoration during a RUP check.
-/

/-- Writing back the element already at an in-range position is a no-op. -/
theorem set_getD_self {α : Type} :
    ∀ (l : List α) (i : Nat) (d : α), i < l.length → l.set i (l.getD i d) = l
  | [], i, d, h => by simp at h
  | a :: t, 0, d, _ => by simp [List.getD]
  | a :: t, i + 1, d, h => by
      simp only [List.getD_cons_succ, List.set_cons_succ]
      rw [set_getD_self t i d (by simpa using h)]

/-- Padding a list with default elements does not change any getD read. -/
theorem getD_append_replicate {α : Type} (l : List α) (k i : Nat) (d : α) :
    (l ++ List.replicate k d).getD i d = l.getD i d := by
  rw [List.getD_eq_getElem?_getD, List.getD_eq_getElem?_getD, List.getElem?_append]
  split
  · rfl
  · rename_i hx
    rw [List.getElem?_replicate, List.getElem?_eq_none (le_of_not_lt hx)]
    split <;> rfl

/-- ensureLen only grows the table. -/
theorem ensureLen_length_le (tbl : List (Option UnitClause)) (i : Nat) :
    tbl.length ≤ (ensureLen tbl i).length := by
  unfold ensureLen
  split
  · simp
  · exact le_rfl

/-- ensureLen brings the requested index in range. -/
theorem lt_ensureLen (tbl : List (Option UnitClause)) (i : Nat) :
    i < (ensureLen tbl i).length := by
  unfold ensureLen
  split
  · rename_i hx
    simp only [List.length_append, List.length_replicate]
    omega
  · rename_i hx
    omega

/-- ensureLen does not change any getD read. -/
theorem TblEq_ensureLen (tbl : List (Option UnitClause)) (i : Nat) :
    TblEq (ensureLen tbl i) tbl := by
  intro j
  unfold ensureLen
  split
  · exact getD_append_replicate tbl _ j none
  · rfl

/-- Restoring a trail does not change the table's length. -/
theorem restore_length :
    ∀ (trail : List (Lit × Option UnitClause)) (tbl : List (Option UnitClause)),
      (restore trail tbl).length = tbl.length
  | [], tbl => rfl
  | p :: rest, tbl => by
      simp only [restore, List.length_set]
      exact restore_length rest tbl

/-- The most recently pushed trail entry is restored first. -/
theorem restore_append_single :
    ∀ (trail : List (Lit × Option UnitClause)) (p : Lit × Option UnitClause)
      (tbl : List (Option UnitClause)),
      restore (trail ++ [p]) tbl = restore trail (tbl.set p.1.index p.2)
  | [], p, tbl => rfl
  | q :: rest, p, tbl => by
      show (restore (rest ++ [p]) tbl).set q.1.index q.2 = _
      rw [restore_append_single rest p tbl]
      rfl

/-- Restoration commutes with padding beyond every saved index. -/
theorem restore_append_pad :
    ∀ (trail : List (Lit × Option UnitClause)) (tbl pad : List (Option UnitClause)),
      (∀ p ∈ trail, p.1.index < tbl.length) →
      restore trail (tbl ++ pad) = restore trail tbl ++ pad
  | [], tbl, pad, _ => rfl
  | q :: rest, tbl, pad, hin => by
      simp only [restore]
      rw [restore_append_pad rest tbl pad (fun p hp => hin p (List.mem_cons_of_mem q hp)),
        List.set_append,
        if_pos (by rw [restore_length]; exact hin q (List.mem_cons_self q rest))]

/-- Pushing the current entry onto the trail and overwriting it preserves
the restoration invariant. -/
theorem Inv2.push (tbl₀ : List (Option UnitClause))
    (trail : List (Lit × Option UnitClause)) (tbl : List (Option UnitClause))
    (l : Lit) (v : Option UnitClause)
    (inv : Inv2 tbl₀ trail tbl) (h : l.index < tbl.length) :
    Inv2 tbl₀ (trail ++ [(l, tbl.getD l.index none)]) (tbl.set l.index v) := by
  obtain ⟨hfit, heq⟩ := inv
  constructor
  · intro p hp
    rw [List.length_set]
    rcases List.mem_append.mp hp with h1 | h2
    · exact hfit p h1
    · have : p = (l, tbl.getD l.index none) := by simpa using h2
      rw [this]
      exact h
  · intro i
    rw [restore_append_single, List.set_set, set_getD_self tbl l.index none h]
    exact heq i

/-- Growing the table preserves the restoration invariant. -/
theorem Inv2.grow (tbl₀ : List (Option UnitClause))
    (trail : List (Lit × Option UnitClause)) (tbl : List (Option UnitClause)) (i : Nat)
    (inv : Inv2 tbl₀ trail tbl) : Inv2 tbl₀ trail (ensureLen tbl i) := by
  obtain ⟨hfit, heq⟩ := inv
  constructor
  · intro p hp
    exact lt_of_lt_of_le (hfit p hp) (ensureLen_length_le tbl i)
  · intro j
    unfold ensureLen
    split
    · rw [restore_append_pad trail tbl _ hfit, getD_append_replicate]
      exact heq j
    · exact heq j

/-- A known literal value means the variable's index is in range. -/
theorem lit_value_lt (s : Checker) (l : Lit) (x : Bool × UnitClause)
    (h : lit_value s l = some x) : l.index < s.unit_clauses.length := by
  unfold lit_value at h
  cases hx : s.unit_clauses[l.index]? with
  | none => rw [hx] at h; simp at h
  | some o =>
      obtain ⟨hlt, _⟩ := List.getElem?_eq_some.mp hx
      exact hlt

/-- Negating the candidate clause preserves the clause index, the id
allocator, and the restoration invariant. -/
theorem assumeNegated_ok (tbl₀ : List (Option UnitClause)) :
    ∀ (ls : List Lit) (s : Checker),
      CFrame s (assumeNegated s ls) ∧
      (Inv2 tbl₀ s.trail s.unit_clauses →
        Inv2 tbl₀ (assumeNegated s ls).trail (assumeNegated s ls).unit_clauses)
  | [], s => ⟨⟨rfl, rfl⟩, id⟩
  | l :: rest, s => by
      refine ⟨(assumeNegated_ok tbl₀ rest _).1, fun hinv => ?_⟩
      exact (assumeNegated_ok tbl₀ rest _).2
        (Inv2.push tbl₀ s.trail (ensureLen s.unit_clauses l.index) l _
          (Inv2.grow tbl₀ s.trail s.unit_clauses l.index hinv)
          (lt_ensureLen s.unit_clauses l.index))

/-- Scanning a candidate clause's literals preserves the clause index, the
id allocator, and the restoration invariant. -/
theorem scanClause_ok (tbl₀ : List (Option UnitClause)) :
    ∀ (ls : List Lit) (s : Checker) (count : Nat) (ulit : Option Lit),
      CFrame s (scanClause s count ulit ls).state ∧
      (Inv2 tbl₀ s.trail s.unit_clauses →
        Inv2 tbl₀ (scanClause s count ulit ls).state.trail
          (scanClause s count ulit ls).state.unit_clauses)
  | [], s, count, ulit => ⟨⟨rfl, rfl⟩, id⟩
  | l :: rest, s, count, ulit => by
      cases hlv : lit_value s l with
      | none =>
          simp only [scanClause, hlv]
          exact scanClause_ok tbl₀ rest s (count + 1) (some l)
      | some x =>
          obtain ⟨b, u⟩ := x
          cases b with
          | true =>
              simp only [scanClause, hlv]
              exact ⟨⟨rfl, rfl⟩, id⟩
          | false =>
              obtain ⟨uid, uval⟩ := u
              cases uid with
              | Global gid =>
                  simp only [scanClause, hlv]
                  refine ⟨(scanClause_ok tbl₀ rest _ count ulit).1, fun hinv => ?_⟩
                  exact (scanClause_ok tbl₀ rest _ count ulit).2
                    (Inv2.push tbl₀ s.trail s.unit_clauses l _ hinv
                      (lit_value_lt s l _ hlv))
              | TracePos pos =>
                  simp only [scanClause, hlv]
                  refine ⟨(scanClause_ok tbl₀ rest _ count ulit).1, fun hinv => ?_⟩
                  exact (scanClause_ok tbl₀ rest _ count ulit).2 hinv
              | InClause =>
                  simp only [scanClause, hlv]
                  exact scanClause_ok tbl₀ rest s count ulit

/-- Processing one bucket candidate preserves the clause index, the id
allocator, and the restoration invariant. -/
theorem checkCandidate_ok (tbl₀ : List (Option UnitClause)) (s : Checker) (c : Clause) :
    CFrame s (checkCandidate s c).1 ∧
    (Inv2 tbl₀ s.trail s.unit_clauses →
      Inv2 tbl₀ (checkCandidate s c).1.trail (checkCandidate s c).1.unit_clauses) := by
  have hscan := scanClause_ok tbl₀ (c.lits.slice s.literal_buffer) s 0 none
  cases hs : scanClause s 0 none (c.lits.slice s.literal_buffer) with
  | sat s' =>
      rw [hs] at hscan
      simp only [checkCandidate, hs]
      exact hscan
  | fin s' count ulit =>
      rw [hs] at hscan
      simp only [checkCandidate, hs]
      cases ulit with
      | none => exact hscan
      | some l =>
          by_cases hcount : count = 1
          · simp only [if_pos hcount]
            refine ⟨hscan.1, fun hinv => ?_⟩
            exact Inv2.push tbl₀ s'.trail (ensureLen s'.unit_clauses l.index) l _
              (Inv2.grow tbl₀ s'.trail s'.unit_clauses l.index (hscan.2 hinv))
              (lt_ensureLen s'.unit_clauses l.index)
          · simp only [if_neg hcount]
            exact hscan

/-- Processing a whole bucket preserves the clause index, the id allocator,
and the restoration invariant. -/
theorem checkCandidates_ok (tbl₀ : List (Option UnitClause)) :
    ∀ (cands : List Clause) (s : Checker),
      CFrame s (checkCandidates s cands).1 ∧
      (Inv2 tbl₀ s.trail s.unit_clauses →
        Inv2 tbl₀ (checkCandidates s cands).1.trail
          (checkCandidates s cands).1.unit_clauses)
  | [], s => ⟨⟨rfl, rfl⟩, id⟩
  | c :: rest, s => by
      have hone := checkCandidate_ok tbl₀ s c
      cases hc : checkCandidate s c with
      | mk s' conflict =>
          rw [hc] at hone
          cases conflict with
          | true =>
              simp only [checkCandidates, hc]
              exact hone
          | false =>
              simp only [checkCandidates, hc]
              have hrest := checkCandidates_ok tbl₀ rest s'
              exact ⟨⟨hrest.1.1.trans hone.1.1, hrest.1.2.trans hone.1.2⟩,
                fun hinv => hrest.2 (hone.2 hinv)⟩

/-- Processing the hash list preserves the clause index, the id allocator,
and the restoration invariant, whether it ends in success, exhaustion or a
ClauseNotFound error. -/
theorem checkHashes_ok (tbl₀ : List (Option UnitClause)) :
    ∀ (hashes : List Nat) (s : Checker),
      CFrame s (checkHashes s hashes).1 ∧
      (Inv2 tbl₀ s.trail s.unit_clauses →
        Inv2 tbl₀ (checkHashes s hashes).1.trail (checkHashes s hashes).1.unit_clauses)
  | [], s => ⟨⟨rfl, rfl⟩, id⟩
  | h :: rest, s => by
      cases hg : getBucket s.clauses h with
      | none =>
          simp only [checkHashes, hg]
          exact ⟨⟨rfl, rfl⟩, id⟩
      | some bucket =>
          by_cases hbe : bucket = []
          · simp only [checkHashes, hg, if_pos hbe]
            exact ⟨⟨rfl, rfl⟩, id⟩
          · simp only [checkHashes, hg, if_neg hbe]
            have hcands := checkCandidates_ok tbl₀ bucket s
            cases hcc : checkCandidates s bucket with
            | mk s' conflict =>
                rw [hcc] at hcands
                cases conflict with
                | true => exact hcands
                | false =>
                    have hrest := checkHashes_ok tbl₀ rest s'
                    exact ⟨⟨hrest.1.1.trans hcands.1.1, hrest.1.2.trans hcands.1.2⟩,
                      fun hinv => hrest.2 (hcands.2 hinv)⟩

/-- A checkHashes error is always ClauseNotFound. -/
theorem checkHashes_error_shape :
    ∀ (hashes : List Nat) (s s' : Checker) (e : CheckerError),
      checkHashes s hashes = (s', .error e) → ∃ st h, e = .ClauseNotFound st h
  | [], s, s', e, h => by simp [checkHashes] at h
  | h :: rest, s, s', e, heq => by
      cases hg : getBucket s.clauses h with
      | none =>
          rw [checkHashes, hg] at heq
          have h2 : CheckerError.ClauseNotFound s.step h = e := by
            have := congrArg Prod.snd heq
            simpa using this
          exact ⟨s.step, h, h2.symm⟩
      | some bucket =>
          by_cases hbe : bucket = []
          · rw [checkHashes, hg] at heq
            simp only [if_pos hbe] at heq
            have h2 : CheckerError.ClauseNotFound s.step h = e := by
              have := congrArg Prod.snd heq
              simpa using this
            exact ⟨s.step, h, h2.symm⟩
          · rw [checkHashes, hg] at heq
            simp only [if_neg hbe] at heq
            cases hcc : checkCandidates s bucket with
            | mk s₁ conflict =>
                rw [hcc] at heq
                cases conflict with
                | true => simp at heq
                | false => exact checkHashes_error_shape rest s₁ s' e heq

/-- A RUP check preserves the clause index and the id allocator. -/
theorem check_frame (s : Checker) (lits : List Lit) (hashes : List Nat) :
    CFrame s (check_clause_with_hashes s lits hashes).1 := by
  have h₁ := (assumeNegated_ok [] lits { s with trace := [], trace_edges := [] }).1
  cases hch : checkHashes (assumeNegated { s with trace := [], trace_edges := [] } lits)
      hashes with
  | mk s₂ r =>
      have h₂ := (checkHashes_ok [] hashes (assumeNegated
        { s with trace := [], trace_edges := [] } lits)).1
      rw [hch] at h₂
      cases r with
      | error e =>
          have hres : (check_clause_with_hashes s lits hashes).1 = s₂ := by
            simp only [check_clause_with_hashes, hch]
          rw [hres]
          exact ⟨h₂.1.trans h₁.1, h₂.2.trans h₁.2⟩
      | ok rup =>
          have hres : (check_clause_with_hashes s lits hashes).1 =
              unwindTrail (if rup && s₂.has_processors then runSweep s₂ else s₂) := by
            simp only [check_clause_with_hashes, hch]
            split <;> rfl
          rw [hres]
          constructor
          · show (if rup && s₂.has_processors then runSweep s₂ else s₂).clauses = s.clauses
            split
            · exact h₂.1.trans h₁.1
            · exact h₂.1.trans h₁.1
          · show (if rup && s₂.has_processors then runSweep s₂ else s₂).next_clause_id =
              s.next_clause_id
            split
            · exact h₂.2.trans h₁.2
            · exact h₂.2.trans h₁.2

/-- C1 amended: when a RUP check returns with success or with
ClauseCheckFailed, the trail is empty again and every unit-table entry
reads exactly as on entry (the table may only have grown by trailing empty
entries); the ClauseNotFound early return is excluded, since it skips the
unwinding. -/
theorem claim_c1 (s : Checker) (lits : List Lit) (hashes : List Nat)
    (h0 : s.trail = [])
    (hnf : isClauseNotFound (check_clause_with_hashes s lits hashes).2 = false) :
    (check_clause_with_hashes s lits hashes).1.trail = [] ∧
    ∀ i, (check_clause_with_hashes s lits hashes).1.unit_clauses.getD i none =
          s.unit_clauses.getD i none := by
  have hinv₀ : Inv2 s.unit_clauses
      ({ s with trace := [], trace_edges := [] } : Checker).trail
      ({ s with trace := [], trace_edges := [] } : Checker).unit_clauses := by
    constructor
    · show ∀ p ∈ s.trail, _
      rw [h0]
      intro p hp
      simp at hp
    · show TblEq (restore s.trail s.unit_clauses) s.unit_clauses
      rw [h0]
      intro i
      rfl
  have hassume := (assumeNegated_ok s.unit_clauses lits
    { s with trace := [], trace_edges := [] }).2 hinv₀
  cases hch : checkHashes (assumeNegated { s with trace := [], trace_edges := [] } lits)
      hashes with
  | mk s₂ r =>
      have h₂ := (checkHashes_ok s.unit_clauses hashes (assumeNegated
        { s with trace := [], trace_edges := [] } lits)).2 hassume
      rw [hch] at h₂
      cases r with
      | error e =>
          exfalso
          have hres2 : (check_clause_with_hashes s lits hashes).2 = .error e := by
            simp only [check_clause_with_hashes, hch]
          obtain ⟨st, hsh, rfl⟩ := checkHashes_error_shape hashes _ s₂ e hch
          rw [hres2] at hnf
          simp [isClauseNotFound] at hnf
      | ok rup =>
          have hres1 : (check_clause_with_hashes s lits hashes).1 =
              unwindTrail (if rup && s₂.has_processors then runSweep s₂ else s₂) := by
            simp only [check_clause_with_hashes, hch]
            split <;> rfl
          rw [hres1]
          have h₃ : Inv2 s.unit_clauses
              (if rup && s₂.has_processors then runSweep s₂ else s₂).trail
              (if rup && s₂.has_processors then runSweep s₂ else s₂).unit_clauses := by
            split
            · exact h₂
            · exact h₂
          exact ⟨rfl, fun i => h₃.2 i⟩

/-- Witness for C1: a failed check on a fresh checker (no hashes, so the
result is ClauseCheckFailed) leaves the trail empty. -/
theorem claim_c1_witness :
    (check_clause_with_hashes Checker.new clause123 []).1.trail = [] :=
  (claim_c1 Checker.new clause123 [] rfl (by decide)).1

/-!
Id monotonicity of emitted steps.
-/

/-- An empty emission stretch satisfies any bookkeeping bounds. -/
theorem EmitOk.nil (n₀ n₁ : Nat) : EmitOk n₀ [] n₁ :=
  ⟨List.Pairwise.nil, by simp⟩

/-- A single step with id in range is a valid stretch. -/
theorem EmitOk.single (n₀ n₁ : Nat) (st : CheckedProofStep)
    (h1 : st.stepId < n₁) (h2 : st.isDelete = false → n₀ ≤ st.stepId) :
    EmitOk n₀ [st] n₁ :=
  ⟨List.pairwise_singleton _ _, fun x hx => by
    rw [List.mem_singleton.mp hx]
    exact ⟨h1, h2⟩⟩

/-- Concatenating two adjacent stretches yields a stretch. -/
theorem EmitOk.append (n₀ n₁ n₂ : Nat) (o₁ o₂ : List CheckedProofStep)
    (h01 : n₀ ≤ n₁) (h12 : n₁ ≤ n₂)
    (e₁ : EmitOk n₀ o₁ n₁) (e₂ : EmitOk n₁ o₂ n₂) : EmitOk n₀ (o₁ ++ o₂) n₂ := by
  obtain ⟨p₁, b₁⟩ := e₁
  obtain ⟨p₂, b₂⟩ := e₂
  constructor
  · rw [List.pairwise_append]
    refine ⟨p₁, p₂, fun a ha b hb => ?_⟩
    cases hdel : b.isDelete with
    | true => exact Or.inl hdel
    | false => exact Or.inr (lt_of_lt_of_le (b₁ a ha).1 ((b₂ b hb).2 hdel))
  · intro st hst
    rcases List.mem_append.mp hst with h | h
    · exact ⟨lt_of_lt_of_le (b₁ st h).1 h12, (b₁ st h).2⟩
    · exact ⟨(b₂ st h).1, fun hd => le_trans h01 ((b₂ st h).2 hd)⟩

/-- The upper bound of a stretch can be relaxed. -/
theorem EmitOk.weaken (n₀ n₁ n₁' : Nat) (o : List CheckedProofStep)
    (h : n₁ ≤ n₁') (e : EmitOk n₀ o n₁) : EmitOk n₀ o n₁' :=
  ⟨e.1, fun st hst => ⟨lt_of_lt_of_le (e.2 st hst).1 h, (e.2 st hst).2⟩⟩

/-- The id bound survives growing the allocator with an unchanged index. -/
theorem IdBound_mono (s s' : Checker) (hc : s'.clauses = s.clauses)
    (hn : s.next_clause_id ≤ s'.next_clause_id) (hb : IdBound s) : IdBound s' := by
  intro hb' hmem c hcm
  rw [hc] at hmem
  exact lt_of_lt_of_le (hb hb' hmem c hcm) hn

/-- Every association of a set index is the new bucket or an old entry. -/
theorem mem_setBucket :
    ∀ (cls : List (Nat × List Clause)) (h : Nat) (b : List Clause)
      (p : Nat × List Clause), p ∈ setBucket cls h b → p.2 = b ∨ p ∈ cls
  | [], h, b, p, hp => by
      simp only [setBucket, List.mem_singleton] at hp
      exact Or.inl (by rw [hp])
  | (k, b₀) :: rest, h, b, p, hp => by
      by_cases hk : k = h
      · rw [setBucket, if_pos hk] at hp
        rcases List.mem_cons.mp hp with h1 | h2
        · exact Or.inl (by rw [h1])
        · exact Or.inr (List.mem_cons_of_mem _ h2)
      · rw [setBucket, if_neg hk] at hp
        rcases List.mem_cons.mp hp with h1 | h2
        · exact Or.inr (h1 ▸ List.mem_cons_self _ _)
        · rcases mem_setBucket rest h b p h2 with h3 | h4
          · exact Or.inl h3
          · exact Or.inr (List.mem_cons_of_mem _ h4)

/-- Every association of a removed index was an old entry. -/
theorem mem_removeBucket :
    ∀ (cls : List (Nat × List Clause)) (h : Nat) (p : Nat × List Clause),
      p ∈ removeBucket cls h → p ∈ cls
  | [], h, p, hp => by simp [removeBucket] at hp
  | (k, b₀) :: rest, h, p, hp => by
      by_cases hk : k = h
      · rw [removeBucket, if_pos hk] at hp
        exact List.mem_cons_of_mem _ (mem_removeBucket rest h p hp)
      · rw [removeBucket, if_neg hk] at hp
        rcases List.mem_cons.mp hp with h1 | h2
        · exact h1 ▸ List.mem_cons_self _ _
        · exact List.mem_cons_of_mem _ (mem_removeBucket rest h p h2)

/-- A successful lookup is a member of the index. -/
theorem getBucket_mem :
    ∀ (cls : List (Nat × List Clause)) (h : Nat) (b : List Clause),
      getBucket cls h = some b → (h, b) ∈ cls
  | [], h, b, hp => by simp [getBucket] at hp
  | (k, b₀) :: rest, h, b, hp => by
      by_cases hk : k = h
      · subst hk
        rw [getBucket, if_pos rfl] at hp
        have : b₀ = b := by injection hp
        rw [← this]
        exact List.mem_cons_self _ _
      · rw [getBucket, if_neg hk] at hp
        exact List.mem_cons_of_mem _ (getBucket_mem rest h b hp)

/-- In a bounded state every record of any bucket is below the allocator. -/
theorem bucketOf_bound (s : Checker) (h : Nat) (hb : IdBound s) :
    ∀ c ∈ (getBucket s.clauses h).getD [], c.id < s.next_clause_id := by
  intro c hc
  cases hg : getBucket s.clauses h with
  | none => rw [hg] at hc; simp at hc
  | some b =>
      rw [hg] at hc
      exact hb (h, b) (getBucket_mem _ _ _ hg) c hc

/-- A ref_count bump in a bucket leaves the id list unchanged. -/
theorem findMatch_idList (buf lits : List Lit) :
    ∀ (b b' : List Clause) (id : Nat),
      findMatch buf lits b = some (b', id) → b'.map (·.id) = b.map (·.id)
  | [], b', id, hp => by simp [findMatch] at hp
  | c :: rest, b', id, hp => by
      by_cases hc : c.lits.slice buf = lits
      · rw [findMatch, if_pos hc] at hp
        simp only [Option.some.injEq, Prod.mk.injEq] at hp
        rw [← hp.1]
        simp
      · rw [findMatch, if_neg hc] at hp
        cases hfm : findMatch buf lits rest with
        | none => rw [hfm] at hp; simp at hp
        | some q =>
            obtain ⟨qb, qid⟩ := q
            rw [hfm] at hp
            simp only [Option.map_some', Option.some.injEq, Prod.mk.injEq] at hp
            rw [← hp.1]
            simp only [List.map_cons]
            exact congrArg _ (findMatch_idList buf lits rest qb qid hfm)

/-- The deletion scan never introduces new ids into a bucket. -/
theorem deleteFromBucket_subset (buf lits : List Lit) :
    ∀ (b : List Clause), ∀ c' ∈ (deleteFromBucket buf lits b).1, ∃ c ∈ b, c'.id = c.id
  | [], c', hc' => by simp [deleteFromBucket] at hc'
  | c :: rest, c', hc' => by
      by_cases hm : c.lits.slice buf = lits
      · rw [deleteFromBucket] at hc'
        simp only [if_pos hm] at hc'
        by_cases hz : c.ref_count - 1 = 0
        · simp only [if_pos hz] at hc'
          exact ⟨c', List.mem_cons_of_mem _ hc', rfl⟩
        · simp only [if_neg hz] at hc'
          rcases List.mem_cons.mp hc' with h1 | h2
          · exact ⟨c, List.mem_cons_self _ _, by rw [h1]⟩
          · exact ⟨c', List.mem_cons_of_mem _ h2, rfl⟩
      · rw [deleteFromBucket] at hc'
        simp only [if_neg hm] at hc'
        rcases List.mem_cons.mp hc' with h1 | h2
        · exact ⟨c, List.mem_cons_self _ _, by rw [h1]⟩
        · obtain ⟨c₀, hc₀, he⟩ := deleteFromBucket_subset buf lits rest c' h2
          exact ⟨c₀, List.mem_cons_of_mem _ hc₀, he⟩

/-- A deletion scan that returns an id found it on a bucket record. -/
theorem deleteFromBucket_result (buf lits : List Lit) :
    ∀ (b : List Clause) (used id : Nat),
      (deleteFromBucket buf lits b).2 = some (used, some id) → ∃ c ∈ b, c.id = id
  | [], used, id, hp => by simp [deleteFromBucket] at hp
  | c :: rest, used, id, hp => by
      by_cases hm : c.lits.slice buf = lits
      · rw [deleteFromBucket] at hp
        simp only [if_pos hm] at hp
        by_cases hz : c.ref_count - 1 = 0
        · simp only [if_pos hz, Option.some.injEq, Prod.mk.injEq] at hp
          exact ⟨c, List.mem_cons_self _ _, hp.2⟩
        · simp only [if_neg hz] at hp
          simp at hp
      · rw [deleteFromBucket] at hp
        simp only [if_neg hm] at hp
        obtain ⟨c₀, hc₀, he⟩ := deleteFromBucket_result buf lits rest used id hp
        exact ⟨c₀, List.mem_cons_of_mem _ hc₀, he⟩

/-- A rebuilt index entry corresponds to an old entry with the same hash
and the same ids and reference counts. -/
theorem rebuildClauses_mem (oldBuf : List Lit) :
    ∀ (cls : List (Nat × List Clause)) (buf : List Lit) (p : Nat × List Clause),
      p ∈ (rebuildClauses oldBuf cls buf).1 →
      ∃ q ∈ cls, p.1 = q.1 ∧ idRefs p.2 = idRefs q.2
  | [], buf, p, hp => by simp [rebuildClauses] at hp
  | (k, bucket) :: rest, buf, p, hp => by
      simp only [rebuildClauses] at hp
      rcases List.mem_cons.mp hp with h1 | h2
      · exact ⟨(k, bucket), List.mem_cons_self _ _, by rw [h1],
          by rw [h1]; exact rebuildBucket_idRefs oldBuf bucket buf⟩
      · obtain ⟨q, hq, he⟩ := rebuildClauses_mem oldBuf rest _ p h2
        exact ⟨q, List.mem_cons_of_mem _ hq, he⟩

/-- Garbage collection preserves the id allocator. -/
theorem collect_garbage_next (s : Checker) :
    (collect_garbage s).next_clause_id = s.next_clause_id := by
  unfold collect_garbage
  split <;> rfl

/-- Garbage collection preserves the id bound. -/
theorem collect_garbage_IdBound (s : Checker) (hb : IdBound s) :
    IdBound (collect_garbage s) := by
  unfold collect_garbage
  split
  · exact hb
  · intro p hp c hc
    obtain ⟨q, hq, hfst, hir⟩ := rebuildClauses_mem s.literal_buffer s.clauses [] p hp
    have : (c.id, c.ref_count) ∈ idRefs q.2 := by
      rw [← hir]
      exact List.mem_map_of_mem _ hc
    obtain ⟨c₀, hc₀, he⟩ := List.mem_map.mp this
    have : c.id = c₀.id := by
      have := congrArg Prod.fst he
      simpa using this.symm
    rw [this]
    exact hb q hq c₀ hc₀

/-- Allocation behaviour of store_unit_clause: the clause index is
untouched, the allocator only grows, a fresh store uses exactly the next
id, and a duplicate store changes nothing at all. -/
theorem store_unit_clause_spec (s : Checker) (l : Lit) :
    (store_unit_clause s l).1.clauses = s.clauses ∧
    s.next_clause_id ≤ (store_unit_clause s l).1.next_clause_id ∧
    ((store_unit_clause s l).2.2 = true →
      (store_unit_clause s l).2.1 = s.next_clause_id ∧
      (store_unit_clause s l).1.next_clause_id = s.next_clause_id + 1) ∧
    ((store_unit_clause s l).2.2 = false → (store_unit_clause s l).1 = s) := by
  unfold store_unit_clause
  split
  · exact ⟨rfl, le_rfl, fun h => by simp at h, fun _ => rfl⟩
  · exact ⟨rfl, Nat.le_succ _, fun _ => ⟨rfl, rfl⟩, fun h => by simp at h⟩
  · exact ⟨rfl, le_rfl, fun h => by simp at h, fun _ => rfl⟩
  · exact ⟨rfl, Nat.le_succ _, fun _ => ⟨rfl, rfl⟩, fun h => by simp at h⟩

/-- Allocation behaviour of store_clause: the allocator only grows, a fresh
store uses exactly the next id and bumps the allocator, a duplicate store
leaves the allocator unchanged, and the id bound is preserved. -/
theorem store_clause_spec (s : Checker) (lits : List Lit) :
    s.next_clause_id ≤ (store_clause s lits).1.next_clause_id ∧
    ((store_clause s lits).2.2 = true →
      (store_clause s lits).2.1 = s.next_clause_id ∧
      (store_clause s lits).1.next_clause_id = s.next_clause_id + 1) ∧
    ((store_clause s lits).2.2 = false →
      (store_clause s lits).1.next_clause_id = s.next_clause_id) ∧
    (IdBound s → IdBound (store_clause s lits).1) := by
  rcases lits with - | ⟨a, - | ⟨b, rest⟩⟩
  · refine ⟨Nat.le_succ _, fun _ => ⟨rfl, rfl⟩, fun h => Bool.noConfusion h, fun hb => ?_⟩
    intro p hp c hc
    exact Nat.lt_succ_of_lt (hb p hp c hc)
  · have hu := store_unit_clause_spec s a
    show s.next_clause_id ≤ (store_unit_clause s a).1.next_clause_id ∧
      ((store_unit_clause s a).2.2 = true →
        (store_unit_clause s a).2.1 = s.next_clause_id ∧
        (store_unit_clause s a).1.next_clause_id = s.next_clause_id + 1) ∧
      ((store_unit_clause s a).2.2 = false →
        (store_unit_clause s a).1.next_clause_id = s.next_clause_id) ∧
      (IdBound s → IdBound (store_unit_clause s a).1)
    refine ⟨hu.2.1, hu.2.2.1, fun h => by rw [hu.2.2.2 h],
      fun hb => IdBound_mono s _ hu.1 hu.2.1 hb⟩
  · cases hfm : findMatch s.literal_buffer (a :: b :: rest)
        ((getBucket s.clauses (clause_hash (a :: b :: rest))).getD []) with
    | some q =>
        obtain ⟨bucket', id⟩ := q
        have hsc : store_clause s (a :: b :: rest) =
            ({ s with clauses := setBucket s.clauses (clause_hash (a :: b :: rest)) bucket' },
             id, false) := by
          simp only [store_clause, hfm]
        rw [hsc]
        refine ⟨le_rfl, fun h => Bool.noConfusion h, fun _ => rfl, fun hb => ?_⟩
        intro p hp c hc
        show c.id < s.next_clause_id
        rcases mem_setBucket _ _ _ p hp with h1 | h2
        · rw [h1] at hc
          have hm : c.id ∈ bucket'.map (·.id) := List.mem_map_of_mem _ hc
          rw [findMatch_idList s.literal_buffer _ _ bucket' id hfm] at hm
          obtain ⟨c₀, hc₀, he⟩ := List.mem_map.mp hm
          rw [← he]
          exact bucketOf_bound s _ hb c₀ hc₀
        · exact hb p h2 c hc
    | none =>
        cases hnew : ClauseLits.new (a :: b :: rest) s.literal_buffer with
        | mk cl buf' =>
        have hsc : store_clause s (a :: b :: rest) =
            ({ s with
                clauses := setBucket s.clauses (clause_hash (a :: b :: rest))
                  (((getBucket s.clauses (clause_hash (a :: b :: rest))).getD []) ++
                    [⟨s.next_clause_id, 1, cl⟩])
                literal_buffer := buf'
                next_clause_id := s.next_clause_id + 1 },
             s.next_clause_id, true) := by
          simp only [store_clause, hfm, hnew]
        rw [hsc]
        refine ⟨Nat.le_succ _, fun _ => ⟨rfl, rfl⟩, fun h => Bool.noConfusion h, fun hb => ?_⟩
        intro p hp c hc
        show c.id < s.next_clause_id + 1
        rcases mem_setBucket _ _ _ p hp with h1 | h2
        · rw [h1] at hc
          rcases List.mem_append.mp hc with h3 | h4
          · exact Nat.lt_succ_of_lt (bucketOf_bound s _ hb c h3)
          · have hce : c = ⟨s.next_clause_id, 1, cl⟩ := by simpa using h4
            rw [hce]
            exact Nat.lt_succ_self _
        · exact Nat.lt_succ_of_lt (hb p h2 c hc)

/-- An updated bucket entry (set, or removed when empty) is the new bucket
or an old entry. -/
theorem mem_updateBucket (cls : List (Nat × List Clause)) (h : Nat) (b : List Clause)
    (p : Nat × List Clause)
    (hp : p ∈ (if b = [] then removeBucket cls h else setBucket cls h b)) :
    p.2 = b ∨ p ∈ cls := by
  split at hp
  · exact Or.inr (mem_removeBucket _ _ _ hp)
  · exact mem_setBucket _ _ _ p hp

/-- The core deletion preserves the id allocator. -/
theorem delete_core_next (s : Checker) (lits : List Lit) :
    (delete_clause_core s lits).1.next_clause_id = s.next_clause_id := by
  by_cases hlen : lits.length < 2
  · rw [delete_clause_core]
    simp only [if_pos hlen]
  · rw [delete_clause_core]
    simp only [if_neg hlen]
    cases hdel : deleteFromBucket s.literal_buffer lits
        ((getBucket s.clauses (clause_hash lits)).getD []) with
    | mk bucket' res =>
        cases res with
        | none => simp [hdel]
        | some ur =>
            obtain ⟨used, result⟩ := ur
            simp [hdel]

/-- The core deletion preserves the id bound. -/
theorem delete_core_IdBound (s : Checker) (lits : List Lit) (hb : IdBound s) :
    IdBound (delete_clause_core s lits).1 := by
  by_cases hlen : lits.length < 2
  · rw [delete_clause_core]
    simp only [if_pos hlen]
    exact hb
  · rw [delete_clause_core]
    simp only [if_neg hlen]
    cases hdel : deleteFromBucket s.literal_buffer lits
        ((getBucket s.clauses (clause_hash lits)).getD []) with
    | mk bucket' res =>
        have hsub := deleteFromBucket_subset s.literal_buffer lits
          ((getBucket s.clauses (clause_hash lits)).getD [])
        rw [hdel] at hsub
        have hcommon : ∀ p ∈ (if bucket' = [] then removeBucket s.clauses (clause_hash lits)
            else setBucket s.clauses (clause_hash lits) bucket'),
            ∀ c ∈ p.2, c.id < s.next_clause_id := by
          intro p hp c hc
          rcases mem_updateBucket _ _ _ p hp with h1 | h2
          · rw [h1] at hc
            obtain ⟨c₀, hc₀, he⟩ := hsub c hc
            rw [he]
            exact bucketOf_bound s _ hb c₀ hc₀
          · exact hb p h2 c hc
        cases res with
        | none =>
            simp only [hdel]
            exact hcommon
        | some ur =>
            obtain ⟨used, result⟩ := ur
            simp only [hdel]
            exact hcommon

/-- A core deletion that returns an id returns the id of a stored record,
which is below the allocator. -/
theorem delete_core_result (s : Checker) (lits : List Lit) (id : Nat)
    (h : (delete_clause_core s lits).2 = .ok (some id)) (hb : IdBound s) :
    id < s.next_clause_id := by
  by_cases hlen : lits.length < 2
  · rw [delete_clause_core] at h
    simp only [if_pos hlen] at h
    simp at h
  · rw [delete_clause_core] at h
    simp only [if_neg hlen] at h
    cases hdel : deleteFromBucket s.literal_buffer lits
        ((getBucket s.clauses (clause_hash lits)).getD []) with
    | mk bucket' res =>
        cases res with
        | none =>
            rw [hdel] at h
            simp at h
        | some ur =>
            obtain ⟨used, result⟩ := ur
            rw [hdel] at h
            simp only [Except.ok.injEq] at h
            obtain ⟨c, hc, he⟩ := deleteFromBucket_result s.literal_buffer lits _ used id
              (by rw [hdel, h])
            rw [← he]
            exact bucketOf_bound s _ hb c hc

/-- Deletion preserves the allocator and the id bound, and any returned id
is below the allocator. -/
theorem delete_clause_spec (s : Checker) (lits : List Lit) :
    (delete_clause s lits).1.next_clause_id = s.next_clause_id ∧
    (IdBound s → IdBound (delete_clause s lits).1) ∧
    (∀ id, (delete_clause s lits).2 = .ok (some id) → IdBound s →
      id < s.next_clause_id) := by
  cases hdc : delete_clause_core s lits with
  | mk m r =>
      cases r with
      | error e =>
          have hres : delete_clause s lits = (m, .error e) := by
            simp [delete_clause, hdc]
          rw [hres]
          have hm : m = (delete_clause_core s lits).1 := by rw [hdc]
          refine ⟨?_, fun hb => ?_, fun id hid _ => by simp at hid⟩
          · rw [hm, delete_core_next]
          · rw [hm]
            exact delete_core_IdBound s lits hb
      | ok r₀ =>
          have hres : delete_clause s lits = (collect_garbage m, .ok r₀) := by
            simp [delete_clause, hdc]
          rw [hres]
          have hm : m = (delete_clause_core s lits).1 := by rw [hdc]
          refine ⟨?_, fun hb => ?_, fun id hid hb => ?_⟩
          · rw [collect_garbage_next, hm, delete_core_next]
          · rw [hm]
            exact collect_garbage_IdBound _ (delete_core_IdBound s lits hb)
          · simp only [Except.ok.injEq] at hid
            exact delete_core_result s lits id (by rw [hdc, hid]) hb

/-- Clause addition only grows the allocator, preserves the id bound, and
emits a valid step stretch. -/
theorem add_clause_ok (s : Checker) (clause : List Lit) :
    s.next_clause_id ≤ (add_clause s clause).1.next_clause_id ∧
    (IdBound s → IdBound (add_clause s clause).1 ∧
      EmitOk s.next_clause_id (add_clause s clause).2
        (add_clause s clause).1.next_clause_id) := by
  by_cases hu : s.unsat
  · simp only [add_clause, if_pos hu]
    exact ⟨le_rfl, fun hb => ⟨hb, EmitOk.nil _ _⟩⟩
  · cases hst : store_clause s (sortDedup clause) with
    | mk s' p =>
        obtain ⟨id, added⟩ := p
        have hspec := store_clause_spec s (sortDedup clause)
        rw [hst] at hspec
        cases added with
        | true =>
            have hres : add_clause s clause = (s', [.AddClause id (sortDedup clause)]) := by
              simp [add_clause, if_neg hu, hst]
            rw [hres]
            obtain ⟨hid, hnext⟩ := hspec.2.1 rfl
            have hid' : id = s.next_clause_id := hid
            have hnext' : s'.next_clause_id = s.next_clause_id + 1 := hnext
            refine ⟨hspec.1, fun hb => ⟨hspec.2.2.2 hb, ?_⟩⟩
            refine EmitOk.single _ _ _ ?_ ?_
            · show id < s'.next_clause_id
              rw [hnext', hid']
              exact Nat.lt_succ_self _
            · intro _
              show s.next_clause_id ≤ id
              rw [hid']
        | false =>
            have hres : add_clause s clause =
                ({ s' with next_clause_id := s'.next_clause_id + 1 },
                 [.DuplicatedClause s'.next_clause_id id (sortDedup clause)]) := by
              simp [add_clause, if_neg hu, hst]
            rw [hres]
            have hnext' : s'.next_clause_id = s.next_clause_id := hspec.2.2.1 rfl
            refine ⟨?_, fun hb => ?_⟩
            · show s.next_clause_id ≤ s'.next_clause_id + 1
              rw [hnext']
              exact Nat.le_succ _
            · refine ⟨IdBound_mono s' _ rfl (Nat.le_succ _) (hspec.2.2.2 hb), ?_⟩
              refine EmitOk.single _ _ _ ?_ ?_
              · show s'.next_clause_id < s'.next_clause_id + 1
                exact Nat.lt_succ_self _
              · intro _
                show s.next_clause_id ≤ s'.next_clause_id
                rw [hnext']

/-- Checking a list of unit clauses only grows the allocator, preserves the
id bound, and emits a valid step stretch. -/
theorem checkUnits_ok :
    ∀ (units : List (Lit × Nat)) (s : Checker),
      s.next_clause_id ≤ (checkUnits s units).1.next_clause_id ∧
      (IdBound s → IdBound (checkUnits s units).1 ∧
        EmitOk s.next_clause_id (checkUnits s units).2.1
          (checkUnits s units).1.next_clause_id)
  | [], s => ⟨le_rfl, fun hb => ⟨hb, EmitOk.nil _ _⟩⟩
  | (l, h) :: rest, s => by
      cases hch : check_clause_with_hashes s [l] [h] with
      | mk s' r =>
          have hfr := check_frame s [l] [h]
          rw [hch] at hfr
          cases r with
          | error e =>
              have hres : checkUnits s ((l, h) :: rest) = (s', [], some e) := by
                simp only [checkUnits, hch]
              rw [hres]
              exact ⟨le_of_eq hfr.2.symm, fun hb =>
                ⟨IdBound_mono s s' hfr.1 (le_of_eq hfr.2.symm) hb, EmitOk.nil _ _⟩⟩
          | ok u =>
              cases hsu : store_unit_clause s' l with
              | mk s'' q =>
                  obtain ⟨id, added⟩ := q
                  have hspec := store_unit_clause_spec s' l
                  rw [hsu] at hspec
                  have hrest := checkUnits_ok rest s''
                  have hres : checkUnits s ((l, h) :: rest) =
                      ((checkUnits s'' rest).1,
                       (if added then [CheckedProofStep.AtClause id [l] s'.trace_ids]
                        else []) ++ (checkUnits s'' rest).2.1,
                       (checkUnits s'' rest).2.2) := by
                    simp only [checkUnits, hch, hsu]
                  rw [hres]
                  have hb'mono : s.next_clause_id ≤ s''.next_clause_id := by
                    rw [← hfr.2]
                    exact hspec.2.1
                  refine ⟨le_trans hb'mono hrest.1, fun hb => ?_⟩
                  have hb' : IdBound s' := IdBound_mono s s' hfr.1 (le_of_eq hfr.2.symm) hb
                  have hb'' : IdBound s'' := IdBound_mono s' s'' hspec.1 hspec.2.1 hb'
                  refine ⟨(hrest.2 hb'').1, ?_⟩
                  cases added with
                  | true =>
                      obtain ⟨hid, hnext⟩ := hspec.2.2.1 rfl
                      have hid' : id = s'.next_clause_id := hid
                      have hnext' : s''.next_clause_id = s'.next_clause_id + 1 := hnext
                      refine EmitOk.append s.next_clause_id s''.next_clause_id _ _ _
                        hb'mono hrest.1 ?_ ((hrest.2 hb'').2)
                      refine EmitOk.single _ _ _ ?_ ?_
                      · show id < s''.next_clause_id
                        rw [hnext', hid']
                        exact Nat.lt_succ_self _
                      · intro _
                        show s.next_clause_id ≤ id
                        rw [hid']
                        exact le_of_eq hfr.2.symm
                  | false =>
                      have hsame : s'' = s' := hspec.2.2.2 rfl
                      refine EmitOk.append s.next_clause_id s''.next_clause_id _ _ _
                        hb'mono hrest.1 (EmitOk.nil _ _) ((hrest.2 hb'').2)

/-- Checking one proof step only grows the allocator, preserves the id
bound, and emits a valid step stretch. -/
theorem check_step_ok (s : Checker) (stp : ProofStep) :
    s.next_clause_id ≤ (check_step s stp).1.next_clause_id ∧
    (IdBound s → IdBound (check_step s stp).1 ∧
      EmitOk s.next_clause_id (check_step s stp).2.1
        (check_step s stp).1.next_clause_id) := by
  cases stp with
  | AtClause clause propagation_hashes =>
      cases hch : check_clause_with_hashes s (sortDedup clause) propagation_hashes with
      | mk s' r =>
          have hfr := check_frame s (sortDedup clause) propagation_hashes
          rw [hch] at hfr
          cases r with
          | error e =>
              have hres : check_step s (.AtClause clause propagation_hashes) =
                  (s', [], some e) := by
                simp only [check_step, hch]
              rw [hres]
              exact ⟨le_of_eq hfr.2.symm, fun hb =>
                ⟨IdBound_mono s s' hfr.1 (le_of_eq hfr.2.symm) hb, EmitOk.nil _ _⟩⟩
          | ok u =>
              cases hst : store_clause s' (sortDedup clause) with
              | mk s'' p =>
                  obtain ⟨id, added⟩ := p
                  have hspec := store_clause_spec s' (sortDedup clause)
                  rw [hst] at hspec
                  have hb'le : s.next_clause_id ≤ s''.next_clause_id := by
                    rw [← hfr.2]
                    exact hspec.1
                  cases added with
                  | true =>
                      have hres : check_step s (.AtClause clause propagation_hashes) =
                          (s'', [.AtClause id (sortDedup clause) s'.trace_ids], none) := by
                        simp [check_step, hch, hst]
                      rw [hres]
                      obtain ⟨hid, hnext⟩ := hspec.2.1 rfl
                      have hid' : id = s'.next_clause_id := hid
                      have hnext' : s''.next_clause_id = s'.next_clause_id + 1 := hnext
                      refine ⟨hb'le, fun hb => ?_⟩
                      have hb' : IdBound s' :=
                        IdBound_mono s s' hfr.1 (le_of_eq hfr.2.symm) hb
                      refine ⟨hspec.2.2.2 hb', ?_⟩
                      refine EmitOk.single _ _ _ ?_ ?_
                      · show id < s''.next_clause_id
                        rw [hnext', hid']
                        exact Nat.lt_succ_self _
                      · intro _
                        show s.next_clause_id ≤ id
                        rw [hid']
                        exact le_of_eq hfr.2.symm
                  | false =>
                      have hres : check_step s (.AtClause clause propagation_hashes) =
                          (s'', [], none) := by
                        simp [check_step, hch, hst]
                      rw [hres]
                      refine ⟨hb'le, fun hb => ?_⟩
                      have hb' : IdBound s' :=
                        IdBound_mono s s' hfr.1 (le_of_eq hfr.2.symm) hb
                      exact ⟨hspec.2.2.2 hb', EmitOk.nil _ _⟩
  | DeleteClause clause =>
      have hdel := delete_clause_spec s (sortDedup clause)
      cases hdc : delete_clause s (sortDedup clause) with
      | mk s' r =>
          rw [hdc] at hdel
          cases r with
          | error e =>
              have hres : check_step s (.DeleteClause clause) = (s', [], some e) := by
                simp only [check_step, hdc]
              rw [hres]
              exact ⟨le_of_eq hdel.1.symm, fun hb =>
                ⟨hdel.2.1 hb, EmitOk.nil _ _⟩⟩
          | ok r₀ =>
              cases r₀ with
              | none =>
                  have hres : check_step s (.DeleteClause clause) = (s', [], none) := by
                    simp only [check_step, hdc]
                  rw [hres]
                  exact ⟨le_of_eq hdel.1.symm, fun hb =>
                    ⟨hdel.2.1 hb, EmitOk.nil _ _⟩⟩
              | some id =>
                  have hres : check_step s (.DeleteClause clause) =
                      (s', [.DeleteClause id (sortDedup clause)], none) := by
                    simp only [check_step, hdc]
                  rw [hres]
                  refine ⟨le_of_eq hdel.1.symm, fun hb => ⟨hdel.2.1 hb, ?_⟩⟩
                  refine EmitOk.single _ _ _ ?_ ?_
                  · show id < s'.next_clause_id
                    rw [hdel.1]
                    exact hdel.2.2 id rfl hb
                  · intro hd
                    exact absurd hd (by simp [CheckedProofStep.isDelete])
  | UnitClauses units => exact checkUnits_ok units s

/-- Driving the proof-step loop only grows the allocator and emits a valid
step stretch (the final unit-conflict step may reuse the current allocator
value, hence the relaxed upper bound). -/
theorem check_proof_steps_ok :
    ∀ (steps : List ProofStep) (s : Checker),
      s.next_clause_id ≤ (check_proof_steps s steps).1.next_clause_id ∧
      (IdBound s →
        EmitOk s.next_clause_id (check_proof_steps s steps).2.1
          ((check_proof_steps s steps).1.next_clause_id + 1))
  | [], s => by
      by_cases hu : s.unsat
      · simp only [check_proof_steps, if_pos hu]
        refine ⟨le_rfl, fun hb => ?_⟩
        unfold conflictEmission
        cases s.unit_conflict with
        | none => exact EmitOk.nil _ _
        | some ab =>
            obtain ⟨a, b⟩ := ab
            exact EmitOk.single _ _ _ (Nat.lt_succ_self _) (fun _ => le_rfl)
      · simp only [check_proof_steps, if_neg hu]
        exact ⟨le_rfl, fun _ => EmitOk.nil _ _⟩
  | stp :: rest, s => by
      by_cases hu : s.unsat
      · simp only [check_proof_steps, if_pos hu]
        refine ⟨le_rfl, fun hb => ?_⟩
        unfold conflictEmission
        cases s.unit_conflict with
        | none => exact EmitOk.nil _ _
        | some ab =>
            obtain ⟨a, b⟩ := ab
            exact EmitOk.single _ _ _ (Nat.lt_succ_self _) (fun _ => le_rfl)
      · cases hcs : check_step { s with step := s.step + 1 } stp with
        | mk s₁ pq =>
            obtain ⟨out, e⟩ := pq
            have hone := check_step_ok { s with step := s.step + 1 } stp
            rw [hcs] at hone
            cases e with
            | some err =>
                have hres : check_proof_steps s (stp :: rest) = (s₁, out, some err) := by
                  simp only [check_proof_steps, if_neg hu, hcs]
                rw [hres]
                refine ⟨hone.1, fun hb => ?_⟩
                exact EmitOk.weaken _ _ _ _ (Nat.le_succ _) ((hone.2 hb).2)
            | none =>
                have hrest := check_proof_steps_ok rest s₁
                have hres : check_proof_steps s (stp :: rest) =
                    ((check_proof_steps s₁ rest).1,
                     out ++ (check_proof_steps s₁ rest).2.1,
                     (check_proof_steps s₁ rest).2.2) := by
                  simp only [check_proof_steps, if_neg hu, hcs]
                rw [hres]
                refine ⟨le_trans hone.1 hrest.1, fun hb => ?_⟩
                exact EmitOk.append _ s₁.next_clause_id _ _ _ hone.1
                  (Nat.le_succ_of_le hrest.1) ((hone.2 hb).2)
                  (hrest.2 ((hone.2 hb).1))

/-- Loading a formula only grows the allocator, preserves the id bound, and
emits a valid step stretch. -/
theorem add_formula_ok :
    ∀ (clauses : List (List Lit)) (s : Checker),
      s.next_clause_id ≤ (add_formula s clauses).1.next_clause_id ∧
      (IdBound s → IdBound (add_formula s clauses).1 ∧
        EmitOk s.next_clause_id (add_formula s clauses).2
          (add_formula s clauses).1.next_clause_id)
  | [], s => ⟨le_rfl, fun hb => ⟨hb, EmitOk.nil _ _⟩⟩
  | c :: rest, s => by
      cases hac : add_clause s c with
      | mk s' out =>
          have hone := add_clause_ok s c
          rw [hac] at hone
          have hrest := add_formula_ok rest s'
          have hres : add_formula s (c :: rest) =
              ((add_formula s' rest).1, out ++ (add_formula s' rest).2) := by
            simp only [add_formula, hac]
          rw [hres]
          refine ⟨le_trans hone.1 hrest.1, fun hb => ?_⟩
          refine ⟨(hrest.2 (hone.2 hb).1).1, ?_⟩
          exact EmitOk.append _ s'.next_clause_id _ _ _ hone.1 hrest.1
            ((hone.2 hb).2) ((hrest.2 (hone.2 hb).1).2)

/-- C2 amended: over any complete run of the checker, the ids of emitted
checked steps are allocation-ordered: for any two emitted steps, either the
later one is a DeleteClause (which carries the id of the earlier-allocated
clause being deleted), or the earlier step carries a strictly smaller id
than the later.  Restricted to non-deletion steps — AddClause,
DuplicatedClause (burned ids included) and AtClause — ids are strictly
increasing in emission order. -/
theorem claim_c2 (clauses : List (List Lit)) (steps : List ProofStep) :
    List.Pairwise EmitLe (checkerRun clauses steps).2.1 := by
  have hb0 : IdBound Checker.new := by
    intro hb hmem
    simp [Checker.new] at hmem
  have hform := add_formula_ok clauses Checker.new
  obtain ⟨hb1, he1⟩ := hform.2 hb0
  have hsteps := check_proof_steps_ok steps (add_formula Checker.new clauses).1
  have he2 := hsteps.2 hb1
  have hall : EmitOk 0 ((add_formula Checker.new clauses).2 ++
      (check_proof_steps (add_formula Checker.new clauses).1 steps).2.1)
      ((check_proof_steps (add_formula Checker.new clauses).1 steps).1.next_clause_id + 1) :=
    EmitOk.append 0 (add_formula Checker.new clauses).1.next_clause_id _ _ _
      (Nat.zero_le _) (Nat.le_succ_of_le hsteps.1) he1 he2
  exact hall.1

end Varisat
